import Mathlib

/-!
Verification development for the `hardlinkable` repository.

The Go sources are shallowly embedded: Go maps become `GoMap` values (a key
`Finset` plus a total value function), Go slices become `List`s, machine
integers become `Nat`/`Int` (with explicit `% 2^32` where uint32 wraparound
is reachable), and the filesystem is abstracted as an `Env` of oracles (file
bytes, xattr comparison, content comparison).  Each definition mirrors one
function of the source; the file ends with theorems settling the spec claims.
-/

set_option exponentiation.threshold 10000

namespace Hardlinkable

/-- Inode number (`Ino`, a `uint64` in `internal/inode`). -/
abbrev Ino := Nat

/-- Metadata hash value (`Hash`, a `uint64` in `fsdev.go`). -/
abbrev Hash := Nat

/-- Content digest value (`Digest`, a `uint32` in `digest.go`). -/
abbrev Digest := Nat

/-- Set of inode numbers (`InoSet` in the source, a Go `map[Ino]struct{}`). -/
abbrev InoSet := Finset Ino

/-- Embedding of a Go map: the set of present keys plus a total value
function (only meaningful on `keys`).  Lookup of an absent key returns
`none`, mirroring Go's `v, ok := m[k]` two-value read. -/
structure GoMap (κ β : Type) [DecidableEq κ] where
  keys : Finset κ
  val : κ → β

namespace GoMap

variable {κ β : Type} [DecidableEq κ]

/-- Lookup mirroring Go's comma-ok map read. -/
def lookup (m : GoMap κ β) (k : κ) : Option β :=
  if k ∈ m.keys then some (m.val k) else none

/-- Go map assignment `m[k] = b`. -/
def insert (m : GoMap κ β) (k : κ) (b : β) : GoMap κ β :=
  ⟨Insert.insert k m.keys, Function.update m.val k b⟩

/-- Go `delete(m, k)`. -/
def erase (m : GoMap κ β) (k : κ) : GoMap κ β :=
  ⟨m.keys.erase k, m.val⟩

/-- Go map read `m[k]` without the ok flag: absent keys give the zero value. -/
def getZ (m : GoMap κ β) (k : κ) (z : β) : β :=
  (m.lookup k).getD z

/-- Empty Go map (`make(map[...]...)`). -/
def empty (z : β) : GoMap κ β :=
  ⟨∅, fun _ => z⟩

end GoMap

/-- Ascending enumeration of a finite set.  Go iterates maps and sets in
unspecified order; the model fixes the ascending order.  (Insertion sort is
used because it evaluates by kernel reduction, unlike `Finset.sort`.) -/
def finsetAsc {α : Type} [LinearOrder α] (s : Finset α) : List α :=
  Quot.liftOn s.val (fun l => l.insertionSort (· ≤ ·)) fun _ _ h =>
    List.eq_of_perm_of_sorted
      ((List.perm_insertionSort _ _).trans (h.trans (List.perm_insertionSort _ _).symm))
      (List.sorted_insertionSort _ _) (List.sorted_insertionSort _ _)

/-- Inode metadata snapshot (`StatInfo` of the `main` package; fields are the
ones `fsdev.go` reads).  `Mode` is the full `os.FileMode` bits, `Sec`/`Nsec`
the mtime split, `Nlink` the link count. -/
structure StatInfo where
  Size : Nat
  Ino : Ino
  Sec : Nat
  Nsec : Nat
  Nlink : Nat
  Uid : Nat
  Gid : Nat
  Mode : Nat
deriving DecidableEq, Repr, Inhabited

/-- Pathname split into directory and file name (`Pathsplit`). -/
structure Pathsplit where
  Dirname : String
  Filename : String
deriving DecidableEq, Repr, Inhabited

/-- Rejoin a `Pathsplit` into a path string (`Pathsplit.Join`: the source
joins dirname and filename with the path separator). -/
def Pathsplit.Join (p : Pathsplit) : String :=
  p.Dirname ++ "/" ++ p.Filename

/-- Pairing of a path and the stat of its inode (`PathStat` in `fsdev.go`). -/
structure PathStat where
  path : Pathsplit
  stat : StatInfo
deriving DecidableEq, Repr, Inhabited

/-- Go `os.FileMode.Perm()`: the low nine permission bits of the mode. -/
def FileModePerm (m : Nat) : Nat := m &&& 511

/-! ### Content digest (`src/digest.go`, `contentDigest`) -/

/-- FNV-1a 32-bit prime. -/
def fnvPrime : Nat := 16777619

/-- FNV-1a 32-bit offset basis. -/
def fnvOffset : Nat := 2166136261

/-- One FNV-1a step: xor in the byte, multiply by the prime, in `uint32`. -/
def fnvStep (h b : Nat) : Nat := ((h ^^^ b) * fnvPrime) % 2 ^ 32

/-- FNV-1a 32-bit hash of a byte sequence (`hash/fnv` `New32a`/`Write`/`Sum32`). -/
def fnv1a32 (bytes : List Nat) : Nat := bytes.foldl fnvStep fnvOffset

/-- The 8 KiB buffer `contentDigest` hashes: `buf := make([]byte, 8192)` is
zero-initialised and a single `Read` fills its first `min(len, 8192)` bytes;
the read count is discarded, so the whole buffer is hashed. -/
def digestBuf (content : List Nat) : List Nat :=
  content.take 8192 ++ List.replicate (8192 - min content.length 8192) 0

/-- Shallow embedding of `contentDigest` (src/digest.go).  The file is
abstracted as its byte content.  `f.Read(buf)` errors exactly when no byte
can be returned (empty file: `Read` yields `0, io.EOF`), in which case the
function returns the error before hashing; otherwise it hashes the whole
8192-byte buffer. -/
def contentDigest (content : List Nat) : Option Digest :=
  if content.isEmpty then none
  else some (fnv1a32 (digestBuf content))

/-- Digest the spec describes: FNV-1a over only the file's actual bytes,
truncated at 8 KiB.  (Second definition, written from the spec's words, for
comparison with `contentDigest` above.) -/
def specContentDigest (content : List Nat) : Nat :=
  fnv1a32 (content.take 8192)

/-! ### Options of the `hardlinkable` package (`src/digest.go`) -/

/-- Options record of the newer `hardlinkable` package (the regex slices are
kept as opaque string lists; they play no role in `Validate`). -/
structure PkgOptions where
  SameName : Bool
  IgnoreTime : Bool
  IgnorePerm : Bool
  IgnoreOwner : Bool
  IgnoreXAttr : Bool
  LinkingEnabled : Bool
  MinFileSize : Nat
  MaxFileSize : Nat
  DebugLevel : Nat
  UseNewestLink : Bool
  FileIncludes : List String
  FileExcludes : List String
  DirExcludes : List String
  StoreExistingLinkResults : Bool
  StoreNewLinkResults : Bool
  ShowExtendedRunStats : Bool
  ShowRunStats : Bool
  IgnoreWalkErrors : Bool
  IgnoreLinkErrors : Bool
  CheckQuiescence : Bool
  SearchThresh : Int
deriving DecidableEq, Repr

/-- Embedding of `Options.Validate` (src/digest.go): reject a non-zero
`MaxFileSize` below `MinFileSize`, otherwise normalise the record in place
(`ShowExtendedRunStats` forces `ShowRunStats`; `LinkingEnabled` forces
`CheckQuiescence`).  The Go method mutates its receiver and returns `error`;
here the mutated record is returned on success. -/
def PkgOptions.Validate (o : PkgOptions) : Except String PkgOptions :=
  if o.MaxFileSize > 0 ∧ o.MaxFileSize < o.MinFileSize then
    .error "MinFileSize cannot be larger than MaxFileSize"
  else
    .ok { o with
          ShowRunStats := if o.ShowExtendedRunStats then true else o.ShowRunStats,
          CheckQuiescence := if o.LinkingEnabled then true else o.CheckQuiescence }

/-! ### Results and `foundNewLink` (src/unnamed/part_003) -/

/-- Slice of newly linkable path groups plus the options bit `foundNewLink`
reads; the counters it bumps (`Results` of the `hardlinkable` package,
restricted to the fields `foundNewLink` touches). -/
structure Results where
  newLinkStatsEnabled : Bool
  LinkPaths : List (List String)
  NewLinkCount : Nat
deriving DecidableEq, Repr

/-- Embedding of `Results.foundNewLink`: with storage enabled, either start
`LinkPaths`, extend its last group when the new source equals that group's
head, or append a fresh two-element group; always bump `NewLinkCount`. -/
def Results.foundNewLink (r : Results) (srcP dstP : Pathsplit) : Results :=
  let r1 :=
    if r.newLinkStatsEnabled then
      let src := srcP.Join
      let dst := dstP.Join
      if h : r.LinkPaths = [] then
        { r with LinkPaths := [[src, dst]] }
      else
        let prevGroup := r.LinkPaths.getLast h
        let prevSrc := prevGroup.headD ""
        if src = prevSrc then
          { r with LinkPaths := r.LinkPaths.dropLast ++ [prevGroup ++ [dst]] }
        else
          { r with LinkPaths := r.LinkPaths ++ [[src, dst]] }
    else r
  { r1 with NewLinkCount := r1.NewLinkCount + 1 }

/-- Fold `foundNewLink` over a sequence of `(src, dst)` link discoveries. -/
def Results.applyNewLinks (r : Results) (calls : List (Pathsplit × Pathsplit)) : Results :=
  calls.foldl (fun acc c => acc.foundNewLink c.1 c.2) r

/-- Longest prefix of `calls` whose sources all join to the string `s`,
returned as the joined destinations, with the rest of the calls (carrying
its length bound for termination).  Specification device for the grouping
`foundNewLink` performs. -/
def takeRun (s : String) :
    (cs : List (Pathsplit × Pathsplit)) →
      List String × { rest : List (Pathsplit × Pathsplit) // rest.length ≤ cs.length }
  | [] => ([], ⟨[], Nat.le_refl _⟩)
  | c :: cs =>
    if c.1.Join = s then
      let r := takeRun s cs
      (c.2.Join :: r.1, ⟨r.2.1, Nat.le_trans r.2.2 (Nat.le_succ _)⟩)
    else ([], ⟨c :: cs, Nat.le_refl _⟩)

/-- Groups the spec's words describe: maximal runs of consecutive calls with
equal source path, each rendered as the source followed by the run's
destinations. -/
def specGroups : List (Pathsplit × Pathsplit) → List (List String)
  | [] => []
  | c :: cs =>
    let r := takeRun c.1.Join cs
    (c.1.Join :: c.2.Join :: r.1) :: specGroups r.2.1
termination_by cs => cs.length
decreasing_by
  have := (takeRun c.1.Join cs).2.2
  simp only [List.length_cons]
  omega

/-! ### FSDev state and ingestion (`src/fsdev.go`) -/

/-- Per-filename path lists of one inode (`FilenamePaths`,
a `map[string][]Pathsplit`). -/
abbrev FilenamePaths := GoMap String (List Pathsplit)

/-- Options of the old `main` package, restricted to the fields `fsdev.go`
reads (`MyOptions`). -/
structure Options where
  SameName : Bool
  IgnoreTime : Bool
  IgnorePerms : Bool
  IgnoreOwner : Bool
  IgnoreXattr : Bool
  ContentOnly : Bool
  LinearSearchThresh : Int
deriving DecidableEq, Repr

/-- External world the engine consults: file contents by path (for
`contentDigest`), the xattr comparator `equalXAttrs` (value and whether it
errored), and the byte-compare oracle `areFileContentsEqual`.  All are keyed
on the split path, which the source passes as `ps.Join()`. -/
structure Env where
  fileBytes : Pathsplit → List Nat
  equalXAttrsVal : Pathsplit → Pathsplit → Bool
  equalXAttrsErr : Pathsplit → Pathsplit → Bool
  contentsEqualVal : Pathsplit → Pathsplit → Bool

/-- Counters of `LinkingStats` (src/stats.go) that ingestion touches, plus
the digest counter `contentDigest` bumps and the recorded existing links. -/
structure LinkingStats where
  numInodes : Nat
  numMissedHashes : Nat
  numFoundHashes : Nat
  numInoSeqSearches : Nat
  numInoSeqIterations : Nat
  numHashMismatches : Nat
  numComparisons : Nat
  numEqualComparisons : Nat
  numMismatchedMtime : Nat
  numMismatchedMode : Nat
  numMismatchedUid : Nat
  numMismatchedGid : Nat
  numMismatchedXattr : Nat
  digestComputedCount : Nat
  existingLinks : List (Pathsplit × Pathsplit × StatInfo)
deriving DecidableEq, Repr

/-- Zero-initialised stats (`NewLinkingStats`). -/
def NewLinkingStats : LinkingStats :=
  ⟨0, 0, 0, 0, 0, 0, 0, 0, 0, 0, 0, 0, 0, 0, []⟩

/-- Per-device engine state (`FSDev`). -/
structure FSDev where
  Dev : Nat
  MaxNLinks : Nat
  InoHashes : GoMap Hash InoSet
  InoStatInfo : GoMap Ino StatInfo
  InoPaths : GoMap Ino FilenamePaths
  LinkedInos : GoMap Ino InoSet
  DigestIno : GoMap Digest InoSet
  InosWithDigest : InoSet

/-- Fresh per-device state (`NewFSDev`). -/
def NewFSDev (dev maxNLinks : Nat) : FSDev :=
  ⟨dev, maxNLinks, GoMap.empty ∅, GoMap.empty default, GoMap.empty (GoMap.empty []),
   GoMap.empty ∅, GoMap.empty ∅, ∅⟩

/-- Metadata hash of the old `main` package (`InoHash` in fsdev.go): size,
xor'd with the mtime seconds and nanoseconds unless times are ignored. -/
def InoHash (stat : StatInfo) (opt : Options) : Hash :=
  let size := stat.Size
  if opt.IgnoreTime || opt.ContentOnly then size
  else size ^^^ stat.Sec ^^^ stat.Nsec

/-- Mtime as nanoseconds since the epoch (`Mtim.UnixNano()`). -/
def mtimUnixNano (si : StatInfo) : Nat := si.Sec * 1000000000 + si.Nsec

/-- Metadata hash of `internal/inode` (`HashIno` in inohash.go): size xor
mtime nanoseconds xor permission bits xor packed owner, each under its
ignore flag. -/
def HashIno (si : StatInfo) (ignoreTime ignorePerm ignoreOwner : Bool) : Hash :=
  let h := si.Size
  let h := if !ignoreTime then h ^^^ mtimUnixNano si else h
  let h := if !ignorePerm then h ^^^ FileModePerm si.Mode else h
  let h := if !ignoreOwner then h ^^^ (si.Uid <<< 32 ||| si.Gid) else h
  h

/-- `PathStat.EqualTime`. -/
def PathStat.EqualTime (s1 s2 : PathStat) : Bool :=
  s1.stat.Sec == s2.stat.Sec && s1.stat.Nsec == s2.stat.Nsec

/-- `PathStat.EqualMode`. -/
def PathStat.EqualMode (s1 s2 : PathStat) : Bool :=
  s1.stat.Mode == s2.stat.Mode

/-- `PathStat.EqualOwnership`. -/
def PathStat.EqualOwnership (s1 s2 : PathStat) : Bool :=
  s1.stat.Uid == s2.stat.Uid && s1.stat.Gid == s2.stat.Gid

/-- Registers a digest for an inode (`helperPathStatDigest`): add the inode
to `DigestIno[digest]` (creating the set if needed) and to `InosWithDigest`. -/
def helperPathStatDigest (fs : FSDev) (ps : PathStat) (digest : Digest) : FSDev :=
  let fs :=
    match fs.DigestIno.lookup digest with
    | none => { fs with DigestIno := fs.DigestIno.insert digest {ps.stat.Ino} }
    | some s => { fs with DigestIno := fs.DigestIno.insert digest (Insert.insert ps.stat.Ino s) }
  { fs with InosWithDigest := Insert.insert ps.stat.Ino fs.InosWithDigest }

/-- `addPathStatDigest`: register an already-computed digest unless the inode
has one. -/
def addPathStatDigest (fs : FSDev) (ps : PathStat) (digest : Digest) : FSDev :=
  if ps.stat.Ino ∈ fs.InosWithDigest then fs else helperPathStatDigest fs ps digest

/-- Runs `contentDigest` on a path, bumping the digest counter exactly when
the open and read succeed (`Stats.computedDigest()` in digest.go). -/
def runContentDigest (env : Env) (p : Pathsplit) (stats : LinkingStats) :
    Option Digest × LinkingStats :=
  match contentDigest (env.fileBytes p) with
  | none => (none, stats)
  | some d => (some d, { stats with digestComputedCount := stats.digestComputedCount + 1 })

/-- `newPathStatDigest`: compute and register a digest for the inode unless
it has one; a digest read error registers nothing. -/
def newPathStatDigest (env : Env) (fs : FSDev) (stats : LinkingStats) (ps : PathStat) :
    FSDev × LinkingStats :=
  if ps.stat.Ino ∈ fs.InosWithDigest then (fs, stats)
  else
    match runContentDigest env ps.path stats with
    | (some d, stats) => (helperPathStatDigest fs ps d, stats)
    | (none, stats) => (fs, stats)

/-- One recorded path of an inode (`ArbitraryPath`).  Go iterates the inner
map in unspecified order; the model takes the smallest filename key.  Go
panics when no path is recorded; the model returns the zero `Pathsplit`. -/
def ArbitraryPath (f : FSDev) (ino : Ino) : Pathsplit :=
  let fp := f.InoPaths.getZ ino (GoMap.empty [])
  match (finsetAsc fp.keys).head? with
  | some k => (fp.val k).headD default
  | none => default

/-- `ArbitraryFilenamePath`: the first recorded path with the given
filename. -/
def ArbitraryFilenamePath (f : FSDev) (ino : Ino) (filename : String) : Pathsplit :=
  ((f.InoPaths.getZ ino (GoMap.empty [])).getZ filename []).headD default

/-- `InoAppendPathname`: append one path to the inode's per-filename list,
creating the inner map and list as needed. -/
def InoAppendPathname (f : FSDev) (ino : Ino) (pathsplit : Pathsplit) : FSDev :=
  let filenamePaths := f.InoPaths.getZ ino (GoMap.empty [])
  let paths := filenamePaths.getZ pathsplit.Filename []
  { f with InoPaths :=
      f.InoPaths.insert ino (filenamePaths.insert pathsplit.Filename (paths ++ [pathsplit])) }

/-- `PathStatFromIno`: an arbitrary recorded path paired with the stored
stat. -/
def PathStatFromIno (f : FSDev) (ino : Ino) : PathStat :=
  ⟨ArbitraryPath f ino, f.InoStatInfo.getZ ino default⟩

/-- `addLinkableInos`: add the undirected edge to the adjacency map. -/
def addLinkableInos (f : FSDev) (ino1 ino2 : Ino) : FSDev :=
  let f :=
    match f.LinkedInos.lookup ino1 with
    | none => { f with LinkedInos := f.LinkedInos.insert ino1 {ino2} }
    | some s => { f with LinkedInos := f.LinkedInos.insert ino1 (Insert.insert ino2 s) }
  match f.LinkedInos.lookup ino2 with
  | none => { f with LinkedInos := f.LinkedInos.insert ino2 {ino1} }
  | some s => { f with LinkedInos := f.LinkedInos.insert ino2 (Insert.insert ino1 s) }

/-- Worklist loop of `linkedInoSet`: pop an inode, record it, and if the
remaining map still holds it, consume its adjacency entry and push its
neighbours.  Go pops from the slice's end and appends there; the model's
stack top is the list head.  The fuel argument only bounds the recursion
and is chosen large enough to never run out (`linkedFuel`). -/
def linkedInoSetLoop : Nat → GoMap Ino InoSet → List Ino → InoSet → InoSet
  | 0, _, _, result => result
  | _ + 1, _, [], result => result
  | fuel + 1, remainingInos, ino :: pending, result =>
    let result := Insert.insert ino result
    match remainingInos.lookup ino with
    | some linkedInos =>
      linkedInoSetLoop fuel (remainingInos.erase ino)
        (finsetAsc linkedInos ++ pending) result
    | none => linkedInoSetLoop fuel remainingInos pending result

/-- Fuel sufficient for `linkedInoSetLoop`: one step per initial pending
entry plus, per adjacency entry, one step and one per neighbour. -/
def linkedFuel (m : GoMap Ino InoSet) : Nat :=
  m.keys.sum (fun k => 1 + (m.val k).card) + 1

/-- `linkedInoSet`: the connected component of an inode in the `LinkedInos`
adjacency (trivially the singleton when the inode has no edges). -/
def linkedInoSet (f : FSDev) (ino : Ino) : InoSet :=
  match f.LinkedInos.lookup ino with
  | none => {ino}
  | some _ => linkedInoSetLoop (linkedFuel f.LinkedInos) f.LinkedInos [ino] ∅

/-- The three digest partitions of the cached bucket, computed after the
current inode's digest was registered (fsdev.go lines 157-159):
`(noDigestSet, sameDigestSet, differentDigestSet)`. -/
def digestPartition (cachedInoSet : InoSet) (f : FSDev) (digest : Digest) :
    InoSet × InoSet × InoSet :=
  let noDigestSet := cachedInoSet \ f.InosWithDigest
  let sameDigestSet := cachedInoSet ∩ f.DigestIno.getZ digest ∅
  let differentDigestSet := (cachedInoSet \ sameDigestSet) \ noDigestSet
  (noDigestSet, sameDigestSet, differentDigestSet)

/-- First `BugIf` condition at the escalation point: the current inode
appears in the no-digest partition. -/
def bugNewInoInNoDigestSet (cachedInoSet : InoSet) (f : FSDev) (digest : Digest)
    (ino : Ino) : Bool :=
  ino ∈ (digestPartition cachedInoSet f digest).1

/-- Second `BugIf` condition at the escalation point: the three digest
partitions have a common element (`InoSetIntersection` of all three is
non-empty). -/
def bugOverlappingDigestSets (cachedInoSet : InoSet) (f : FSDev) (digest : Digest) : Bool :=
  let p := digestPartition cachedInoSet f digest
  0 < (p.2.1 ∩ p.2.2 ∩ p.1).card

/-- Invariant of the digest cache: every member of a `DigestIno` digest set
is also marked in `InosWithDigest` (`helperPathStatDigest` always updates
both together). -/
def DigestSetsInv (f : FSDev) : Prop :=
  ∀ d : Digest, (f.DigestIno.lookup d).getD ∅ ⊆ f.InosWithDigest

/-- Digest escalation (fsdev.go lines 147-166): digest the current file; on
success register it, partition the cached inodes, and search same-digest
inodes before undigested ones; on a read error keep the full linear
sequence.  Set enumerations (`AsSlice`) are in unspecified Go map order,
modelled as ascending order. -/
def digestEscalation (env : Env) (f : FSDev) (stats : LinkingStats)
    (curPathStat : PathStat) (cachedInoSet : InoSet) :
    List Ino × FSDev × LinkingStats :=
  match runContentDigest env curPathStat.path stats with
  | (none, stats) => (finsetAsc cachedInoSet, f, stats)
  | (some digest, stats) =>
    let f := addPathStatDigest f curPathStat digest
    let p := digestPartition cachedInoSet f digest
    (finsetAsc p.2.1 ++ finsetAsc p.1, f, stats)

/-- `areFilesHardlinkable` (fsdev.go): the cascade of metadata rejections,
optional digest caching, then the byte compare; on equality the mismatch
statistics are recorded.  Returns the verdict with the updated state and
stats. -/
def areFilesHardlinkable (env : Env) (opt : Options) (fs : FSDev) (stats : LinkingStats)
    (ps1 ps2 : PathStat) (useDigest : Bool) : Bool × FSDev × LinkingStats :=
  if ps1.stat.Ino == ps2.stat.Ino then (false, fs, stats)
  else if !(ps1.stat.Size == ps2.stat.Size) then (false, fs, stats)
  else if !opt.ContentOnly && !opt.IgnoreTime && !(ps1.EqualTime ps2) then (false, fs, stats)
  else if !opt.ContentOnly && !opt.IgnorePerms && !(ps1.EqualMode ps2) then (false, fs, stats)
  else if !opt.ContentOnly && !opt.IgnoreOwner && !(ps1.EqualOwnership ps2) then (false, fs, stats)
  else if !opt.ContentOnly && !opt.IgnoreXattr && !(env.equalXAttrsVal ps1.path ps2.path) then
    (false, fs, stats)
  else
    let r :=
      if useDigest then
        let r1 := newPathStatDigest env fs stats ps1
        newPathStatDigest env r1.1 r1.2 ps2
      else (fs, stats)
    let fs := r.1
    let stats := { r.2 with numComparisons := r.2.numComparisons + 1 }
    let eq := env.contentsEqualVal ps1.path ps2.path
    if eq then
      let stats := { stats with numEqualComparisons := stats.numEqualComparisons + 1 }
      let stats :=
        if !(ps1.stat.Sec == ps2.stat.Sec && ps1.stat.Nsec == ps2.stat.Nsec) then
          { stats with numMismatchedMtime := stats.numMismatchedMtime + 1 }
        else stats
      let stats :=
        if !(FileModePerm ps1.stat.Mode == FileModePerm ps2.stat.Mode) then
          { stats with numMismatchedMode := stats.numMismatchedMode + 1 }
        else stats
      let stats :=
        if !(ps1.stat.Uid == ps2.stat.Uid) then
          { stats with numMismatchedUid := stats.numMismatchedUid + 1 }
        else stats
      let stats :=
        if !(ps1.stat.Gid == ps2.stat.Gid) then
          { stats with numMismatchedGid := stats.numMismatchedGid + 1 }
        else stats
      let stats :=
        if !(env.equalXAttrsErr ps1.path ps2.path) && !(env.equalXAttrsVal ps1.path ps2.path) then
          { stats with numMismatchedXattr := stats.numMismatchedXattr + 1 }
        else stats
      (true, fs, stats)
    else (false, fs, stats)

/-- Candidate search loop of `findIdenticalFiles` (lines 168-176): try each
cached inode in order, stopping at the first hardlinkable one and recording
the edge. -/
def searchLoop (env : Env) (opt : Options) (useDigest : Bool) (curPathStat : PathStat) :
    List Ino → FSDev → LinkingStats → Bool × FSDev × LinkingStats
  | [], f, stats => (false, f, stats)
  | cachedIno :: rest, f, stats =>
    let stats := { stats with numInoSeqIterations := stats.numInoSeqIterations + 1 }
    let cachedPathStat := PathStatFromIno f cachedIno
    match areFilesHardlinkable env opt f stats cachedPathStat curPathStat useDigest with
    | (true, f, stats) => (true, addLinkableInos f cachedPathStat.stat.Ino curPathStat.stat.Ino, stats)
    | (false, f, stats) => searchLoop env opt useDigest curPathStat rest f stats

/-- Index equivalence the spec claims (invariant 1 of the spec, written
from its words): an inode is in the stat map iff it is in the path map iff
some bucket holds it. -/
def ClaimedIndexInv (f : FSDev) : Prop :=
  ∀ ino : Ino,
    ((f.InoStatInfo.lookup ino).isSome = true ↔ (f.InoPaths.lookup ino).isSome = true)
    ∧ ((f.InoStatInfo.lookup ino).isSome = true ↔ ∃ H, ino ∈ (f.InoHashes.lookup H).getD ∅)

/-- Index invariant the code actually maintains: the stat map and the path
map have the same domain, and every bucket member has a recorded stat; a
bucket entry is not guaranteed for every known inode (a matched inode is
linked instead of added to its bucket). -/
def AmendedIndexInv (f : FSDev) : Prop :=
  ∀ ino : Ino,
    ((f.InoStatInfo.lookup ino).isSome = true ↔ (f.InoPaths.lookup ino).isSome = true)
    ∧ (∀ H, ino ∈ (f.InoHashes.lookup H).getD ∅ → (f.InoStatInfo.lookup ino).isSome = true)

/-- The escalation decision (fsdev.go lines 144-145): digests are switched
on when the search threshold is enabled (non-negative) and the cached inode
sequence is longer than it. -/
def useDigestFlag (opt : Options) (cachedLen : Nat) : Bool :=
  decide (0 ≤ opt.LinearSearchThresh) && decide (opt.LinearSearchThresh < (cachedLen : Int))

/-- Candidate search of `findIdenticalFiles` (fsdev.go lines 139-182): bump
the search counter, re-read the cached bucket, decide digest escalation,
build the candidate sequence, run the search loop, and on no match add the
inode to the bucket and record its stat. -/
def searchAndUpdate (env : Env) (opt : Options) (f : FSDev) (stats : LinkingStats)
    (curPathStat : PathStat) (inoHash : Hash) : FSDev × LinkingStats :=
  let stats := { stats with numInoSeqSearches := stats.numInoSeqSearches + 1 }
  let cachedInoSet := f.InoHashes.getZ inoHash ∅
  let useDigest := useDigestFlag opt cachedInoSet.card
  let esc :=
    if useDigest then digestEscalation env f stats curPathStat cachedInoSet
    else (finsetAsc cachedInoSet, f, stats)
  match searchLoop env opt useDigest curPathStat esc.1 esc.2.1 esc.2.2 with
  | (true, f, stats) => (f, stats)
  | (false, f, stats) =>
    let stats := { stats with numHashMismatches := stats.numHashMismatches + 1 }
    let inoSet := f.InoHashes.getZ inoHash ∅
    let f := { f with InoHashes :=
        f.InoHashes.insert inoHash (Insert.insert curPathStat.stat.Ino inoSet) }
    ({ f with InoStatInfo := f.InoStatInfo.insert curPathStat.stat.Ino curPathStat.stat }, stats)

/-- Bucket-hit branch of `findIdenticalFiles` (fsdev.go lines 126-183):
record an existing link when the inode is already known, then search for a
candidate peer unless the inode's component already meets the bucket. -/
def foundHashBranch (env : Env) (opt : Options) (f : FSDev) (stats : LinkingStats)
    (curPathStat : PathStat) (inoHash : Hash) (hashedInos : InoSet) : FSDev × LinkingStats :=
  let stats := { stats with numFoundHashes := stats.numFoundHashes + 1 }
  let stats :=
    match f.InoStatInfo.lookup curPathStat.stat.Ino with
    | some prevStatinfo =>
      let prevPath := ArbitraryPath f curPathStat.stat.Ino
      { stats with existingLinks :=
          stats.existingLinks ++ [(prevPath, curPathStat.path, prevStatinfo)] }
    | none => stats
  let linkedInos := linkedInoSet f curPathStat.stat.Ino
  let linkedHashedInos := linkedInos ∩ hashedInos
  if 0 < linkedHashedInos.card then (f, stats)
  else searchAndUpdate env opt f stats curPathStat inoHash

/-- Ingestion (`findIdenticalFiles`, fsdev.go lines 108-187).  The caller
splits the pathname (`SplitPathname`), so the model receives the
`Pathsplit` directly.  The `Dev` mismatch panic guard is omitted: the model
always ingests into the given device state. -/
def findIdenticalFiles (env : Env) (opt : Options) (f : FSDev) (stats : LinkingStats)
    (curPath : Pathsplit) (statInfo : StatInfo) : FSDev × LinkingStats :=
  let curPathStat : PathStat := ⟨curPath, statInfo⟩
  let stats :=
    if (f.InoStatInfo.lookup statInfo.Ino).isSome then stats
    else { stats with numInodes := stats.numInodes + 1 }
  let inoHash := InoHash statInfo opt
  let r :=
    match f.InoHashes.lookup inoHash with
    | none =>
      let stats := { stats with numMissedHashes := stats.numMissedHashes + 1 }
      ({ f with InoHashes := f.InoHashes.insert inoHash {statInfo.Ino} }, stats)
    | some hashedInos => foundHashBranch env opt f stats curPathStat inoHash hashedInos
  let f := { r.1 with InoStatInfo := r.1.InoStatInfo.insert statInfo.Ino statInfo }
  (InoAppendPathname f statInfo.Ino curPath, r.2)

/-! ### Link planner (src/unnamed/part_004) -/

/-- Sort key record (`inoNlink`). -/
structure InoNlink where
  Ino : Nat
  Nlink : Nat
deriving DecidableEq, Repr

/-- The Go comparator `byNlink.Less(i, j)`: lesser nlink first, and for
equal nlinks the greater inode number first. -/
def byNlinkLess (a b : InoNlink) : Bool :=
  a.Nlink < b.Nlink || (a.Nlink == b.Nlink && b.Ino < a.Ino)

/-- Order `sort.Sort(sort.Reverse(byNlink(...)))` sorts into: the negation
of the original strict comparator, a total order with greatest nlink first
and, on ties, smallest inode first. -/
def byNlinkRevLE (a b : InoNlink) : Bool := !byNlinkLess a b

/-- Sorting of the key records.  Go's `sort.Sort` is unstable, but the
reversed comparator is antisymmetric on the records, so the sorted result
is the unique ordered permutation; `mergeSort` computes it. -/
def sortInoSeq (seq : List InoNlink) : List InoNlink :=
  seq.insertionSort (fun a b => byNlinkRevLE a b = true)

/-- `sortSetByNlink`: pair every inode of the set with its stored nlink
count, sort greatest-nlink-first (ties by ascending inode), and keep the
inode numbers.  Go materialises the set in unspecified map order; the model
enumerates ascending (the sort's result is order-independent, see the C9
theorem). -/
def sortSetByNlink (f : FSDev) (inoSet : InoSet) : List Ino :=
  let seq := (finsetAsc inoSet).map
    (fun ino => InoNlink.mk ino (f.InoStatInfo.getZ ino default).Nlink)
  (sortInoSeq seq).map (fun a => a.Ino)

/-- Emitted link pair (`I.PathInfoPair` sent on the planner's channel). -/
structure PathStatPair where
  Src : PathStat
  Dst : PathStat
deriving DecidableEq, Repr

/-- Results counters the planner bumps (`foundNewLink` count and
`foundRemovedInode`). -/
structure PlanResults where
  newLinkCount : Nat
  inodeRemovedCount : Nat
  inodeRemovedByteAmount : Nat
deriving DecidableEq, Repr

/-- All recorded paths of an inode (`allInoPaths`): Go deep-copies the
inner map and streams every path; the model lists filename keys in
ascending order. -/
def allInoPaths (f : FSDev) (ino : Ino) : List Pathsplit :=
  let fp := f.InoPaths.getZ ino (GoMap.empty [])
  (finsetAsc fp.keys).foldr (fun k acc => fp.val k ++ acc) []

/-- Removes the first occurrence of a path from a list (the find-and-remove
loop of `moveLinkedPath`). -/
def removeFirstPath : List Pathsplit → Pathsplit → List Pathsplit
  | [], _ => []
  | x :: xs, t => if x = t then xs else x :: removeFirstPath xs t

/-- `moveLinkedPath`: remove `dstPath` from the destination inode's path
map (dropping the filename key when its list empties) and append it to the
source inode's paths. -/
def moveLinkedPath (f : FSDev) (dstPath : Pathsplit) (srcIno dstIno : Ino) : FSDev :=
  let fp := f.InoPaths.getZ dstIno (GoMap.empty [])
  let p := removeFirstPath (fp.getZ dstPath.Filename []) dstPath
  let fp :=
    if p.isEmpty then fp.erase dstPath.Filename
    else fp.insert dstPath.Filename p
  let f := { f with InoPaths := f.InoPaths.insert dstIno fp }
  InoAppendPathname f srcIno dstPath

/-- Well-formedness of the per-inode path maps: every stored path sits under
its own filename key (established by `InoAppendPathname`, which always files
a path under `pathsplit.Filename`). -/
def PathsWF (g : FSDev) : Prop :=
  ∀ i, ∀ k ∈ (g.InoPaths.getZ i (GoMap.empty [])).keys,
    ∀ q ∈ (g.InoPaths.getZ i (GoMap.empty [])).val k, q.Filename = k

/-- The filesystem consistency assumption the planner relies on: no inode
has more recorded paths than its link count. -/
def NlinkInv (g : FSDev) : Prop :=
  ∀ i, (allInoPaths g i).length ≤ (g.InoStatInfo.getZ i default).Nlink

/-- Inner path loop of `sendLinkedPairs` (part_004 lines 113-145): emit one
pair per destination path (skipping non-matching filenames under
`SameName`), update both inode nlinks (`uint32` arithmetic), purge the
destination inode when its nlink reaches zero, and move the path record.
`srcSI`/`dstSI` are the locals Go mutates through the loop. -/
def emitPaths (sameName : Bool) (srcIno dstIno : Ino) :
    List Pathsplit → FSDev → StatInfo → StatInfo → PlanResults → List PathStatPair →
    FSDev × StatInfo × StatInfo × PlanResults × List PathStatPair
  | [], f, srcSI, dstSI, res, acc => (f, srcSI, dstSI, res, acc)
  | dstPath :: rest, f, srcSI, dstSI, res, acc =>
    if sameName && !((f.InoPaths.getZ srcIno (GoMap.empty [])).lookup dstPath.Filename).isSome then
      emitPaths sameName srcIno dstIno rest f srcSI dstSI res acc
    else
      let srcPath :=
        if sameName then ArbitraryFilenamePath f srcIno dstPath.Filename
        else ArbitraryPath f srcIno
      let acc := acc ++ [⟨⟨srcPath, srcSI⟩, ⟨dstPath, dstSI⟩⟩]
      let res := { res with newLinkCount := res.newLinkCount + 1 }
      let srcSI := { srcSI with Nlink := (srcSI.Nlink + 1) % 2 ^ 32 }
      let dstSI := { dstSI with Nlink := (dstSI.Nlink + (2 ^ 32 - 1)) % 2 ^ 32 }
      let fr :=
        if dstSI.Nlink = 0 then
          ({ f with InoStatInfo := (f.InoStatInfo.insert srcIno srcSI).erase dstIno },
           { res with inodeRemovedCount := res.inodeRemovedCount + 1,
                      inodeRemovedByteAmount := res.inodeRemovedByteAmount + dstSI.Size })
        else ({ f with InoStatInfo := (f.InoStatInfo.insert srcIno srcSI).insert dstIno dstSI },
              res)
      let f := moveLinkedPath fr.1 dstPath srcIno dstIno
      emitPaths sameName srcIno dstIno rest f srcSI dstSI fr.2 acc

/-- Destination loop of `sendLinkedPairs` (lines 96-154) for one source
inode.  Go pops destinations from the end of `sortedInos`; the model takes
that slice reversed, so the pop is the head.  On a `MaxNLinks` overrun the
popped destination and all still-unprocessed inodes move to
`remainingInos`; otherwise the destination's paths are emitted and, if it
still has paths (possible under `SameName`), it is pushed to
`remainingInos`. -/
def sendLoop (sameName : Bool) (maxNLinks : Nat) (srcIno : Ino) :
    List Ino → FSDev → List Ino → PlanResults → List PathStatPair →
    FSDev × List Ino × PlanResults × List PathStatPair
  | [], f, remainingInos, res, acc => (f, remainingInos, res, acc)
  | dstIno :: revRest, f, remainingInos, res, acc =>
    let srcSI := f.InoStatInfo.getZ srcIno default
    let dstSI := f.InoStatInfo.getZ dstIno default
    if maxNLinks < srcSI.Nlink + dstSI.Nlink then
      (f, remainingInos ++ [dstIno] ++ revRest, res, acc)
    else
      let dstPaths := allInoPaths f dstIno
      let r := emitPaths sameName srcIno dstIno dstPaths f srcSI dstSI res acc
      let f := r.1
      let res := r.2.2.2.1
      let acc := r.2.2.2.2
      let remainingInos :=
        match f.InoPaths.lookup dstIno with
        | some fp => if fp.keys = ∅ then remainingInos else remainingInos ++ [dstIno]
        | none => remainingInos
      sendLoop sameName maxNLinks srcIno revRest f remainingInos res acc

/-- Outer loop of `sendLinkedPairs` (lines 86-155): recycle `remainingInos`
(reversed) onto the tail of `sortedInos`, pop the head as the new source,
and run the destination loop.  Each pass permanently consumes its source,
so fuel equal to the initial inode count suffices; the fuel-out branch is
unreachable from `sendLinkedPairsRun`. -/
def sendLinkedPairs (sameName : Bool) (maxNLinks : Nat) :
    Nat → List Ino → List Ino → FSDev → PlanResults → List PathStatPair →
    FSDev × PlanResults × List PathStatPair
  | 0, _, _, f, res, acc => (f, res, acc)
  | fuel + 1, sortedInos, remainingInos, f, res, acc =>
    if sortedInos.isEmpty && remainingInos.isEmpty then (f, res, acc)
    else
      let sortedInos :=
        if remainingInos.isEmpty then sortedInos
        else sortedInos ++ remainingInos.reverse
      match sortedInos with
      | [] => (f, res, acc)
      | srcIno :: rest =>
        let r := sendLoop sameName maxNLinks srcIno rest.reverse f [] res acc
        sendLinkedPairs sameName maxNLinks fuel [] r.2.1 r.1 r.2.2.1 r.2.2.2

/-- Entry point for planning one component's sorted inode sequence. -/
def sendLinkedPairsRun (sameName : Bool) (maxNLinks : Nat) (sortedInos : List Ino)
    (f : FSDev) : FSDev × PlanResults × List PathStatPair :=
  sendLinkedPairs sameName maxNLinks sortedInos.length sortedInos [] f ⟨0, 0, 0⟩ []

/-! ## Theorems

Helper lemmas first, then one theorem per claim (with witnesses and
counterexamples where required). -/

namespace GoMap

variable {κ β : Type} [DecidableEq κ]

@[simp] theorem lookup_empty (z : β) (k : κ) : (empty z).lookup k = none := by
  simp [empty, lookup]

@[simp] theorem lookup_insert_self (m : GoMap κ β) (k : κ) (b : β) :
    (m.insert k b).lookup k = some b := by
  simp [insert, lookup, Function.update]

theorem lookup_insert_ne (m : GoMap κ β) {k j : κ} (b : β) (h : j ≠ k) :
    (m.insert k b).lookup j = m.lookup j := by
  simp [insert, lookup, Function.update, h]

theorem lookup_insert (m : GoMap κ β) (k j : κ) (b : β) :
    (m.insert k b).lookup j = if j = k then some b else m.lookup j := by
  by_cases h : j = k
  · subst h; simp
  · simp [lookup_insert_ne m b h, h]

@[simp] theorem keys_insert (m : GoMap κ β) (k : κ) (b : β) :
    (m.insert k b).keys = Insert.insert k m.keys := rfl

theorem isSome_lookup (m : GoMap κ β) (k : κ) :
    (m.lookup k).isSome = true ↔ k ∈ m.keys := by
  simp only [lookup]
  by_cases h : k ∈ m.keys <;> simp [h]

theorem mem_of_lookup_getD (m : GoMap κ (Finset Nat)) {k : κ} {x : Nat}
    (h : x ∈ (m.lookup k).getD ∅) : k ∈ m.keys ∧ x ∈ m.val k := by
  by_cases hk : k ∈ m.keys
  · exact ⟨hk, by simpa [lookup, hk] using h⟩
  · simp [lookup, hk] at h

theorem exists_lookup_iff (m : GoMap κ (Finset Nat)) (x : Nat) :
    (∃ k, x ∈ (m.lookup k).getD ∅) ↔ ∃ k ∈ m.keys, x ∈ m.val k := by
  constructor
  · rintro ⟨k, hk⟩
    obtain ⟨h1, h2⟩ := mem_of_lookup_getD m hk
    exact ⟨k, h1, h2⟩
  · rintro ⟨k, h1, h2⟩
    exact ⟨k, by simpa [lookup, h1] using h2⟩

theorem lookup_erase (m : GoMap κ β) (k j : κ) :
    (m.erase k).lookup j = if j = k then none else m.lookup j := by
  by_cases h : j = k
  · subst h; simp [erase, lookup]
  · simp [erase, lookup, Finset.mem_erase, h]

end GoMap

theorem mem_finsetAsc {α : Type} [LinearOrder α] (s : Finset α) (x : α) :
    x ∈ finsetAsc s ↔ x ∈ s := by
  rcases s with ⟨val, nodup⟩
  induction val using Quot.inductionOn with
  | h l =>
    simp only [finsetAsc, Finset.mem_def, Quot.liftOn]
    exact (List.perm_insertionSort (· ≤ ·) l).mem_iff

/-! ### Claim C8: `Options.Validate` -/

/-- C8: `Options.Validate` errors exactly when `MaxFileSize` is non-zero yet
below `MinFileSize`; on success it returns the options normalised in place
(`ShowRunStats` forced on by `ShowExtendedRunStats`, `CheckQuiescence`
forced on by `LinkingEnabled`), in particular `CheckQuiescence` is true
whenever linking is enabled; the error path performs no normalisation work
and returns only the error. -/
theorem validate_c8 (o : PkgOptions) :
    ((∃ e, o.Validate = Except.error e) ↔ 0 < o.MaxFileSize ∧ o.MaxFileSize < o.MinFileSize)
    ∧ (∀ o2, o.Validate = Except.ok o2 →
        o2 = { o with ShowRunStats := o.ShowExtendedRunStats || o.ShowRunStats,
                      CheckQuiescence := o.LinkingEnabled || o.CheckQuiescence })
    ∧ (∀ o2, o.Validate = Except.ok o2 → o.LinkingEnabled = true →
        o2.CheckQuiescence = true) := by
  unfold PkgOptions.Validate
  by_cases h : 0 < o.MaxFileSize ∧ o.MaxFileSize < o.MinFileSize
  · refine ⟨⟨fun _ => h,
      fun _ => ⟨"MinFileSize cannot be larger than MaxFileSize", by simp [h]⟩⟩, ?_, ?_⟩ <;>
      · intro o2 ho2
        simp [h] at ho2
  · refine ⟨⟨fun he => ?_, fun hc => absurd hc h⟩, ?_, ?_⟩
    · obtain ⟨e, he⟩ := he
      simp [h] at he
    · intro o2 ho2
      simp only [h, if_false] at ho2
      cases ho2
      congr 1 <;> cases hx : o.ShowExtendedRunStats <;> cases hl : o.LinkingEnabled <;> simp
    · intro o2 ho2 hl
      simp only [h, if_false] at ho2
      cases ho2
      simp [hl]

/-- Witness for C8 at a concrete record: linking enabled, quiescence check
initially off, sizes consistent; `Validate` succeeds and turns the check
on. -/
theorem validate_c8_witness :
    ∀ o2, (PkgOptions.mk false false false false false true 1 0 0 true [] [] []
        true true false true false false false 1).Validate = Except.ok o2 →
      o2.CheckQuiescence = true := by
  intro o2 ho2
  exact (validate_c8 _).2.2 o2 ho2 rfl

/-! ### Claim C2: `contentDigest` -/

theorem foldl_fnvStep_replicate_zero (n : Nat) (h : Nat) (hlt : h < 2 ^ 32) :
    List.foldl fnvStep h (List.replicate n 0) = h * fnvPrime ^ n % 2 ^ 32 := by
  induction n generalizing h with
  | zero => simpa [List.replicate] using (Nat.mod_eq_of_lt hlt).symm
  | succ n ih =>
    rw [List.replicate_succ, List.foldl_cons,
      ih (fnvStep h 0) (Nat.mod_lt _ (by norm_num)),
      show fnvStep h 0 = h * fnvPrime % 2 ^ 32 by simp [fnvStep],
      Nat.mod_mul_mod, pow_succ]
    ring_nf

/-- C2 counterexample: for the one-byte file `[1]`, `contentDigest` returns
a digest different from the FNV-1a hash of exactly the file's bytes — the
code hashes the whole zero-padded 8 KiB buffer, so the claim fails for
files shorter than 8 KiB. -/
theorem contentDigest_c2_counterexample :
    ∃ d, contentDigest [1] = some d ∧ d ≠ specContentDigest [1] := by
  refine ⟨fnv1a32 (digestBuf [1]), by simp [contentDigest], ?_⟩
  have hbuf : digestBuf [1] = [1] ++ List.replicate 8191 0 := by
    norm_num [digestBuf]
  rw [hbuf]
  show List.foldl fnvStep fnvOffset ([1] ++ List.replicate 8191 0) ≠ _
  rw [List.foldl_append, List.foldl_cons, List.foldl_nil,
    foldl_fnvStep_replicate_zero 8191 (fnvStep fnvOffset 1)
      (by unfold fnvStep; exact Nat.mod_lt _ (by norm_num))]
  decide

/-- C2 amended: `contentDigest` hashes the whole 8 KiB read buffer — the
file's first `min(len, 8192)` bytes zero-padded to 8192 bytes — so it
agrees with the spec's digest (FNV-1a of exactly the first 8 KiB) for
every file of at least 8 KiB, while an empty file yields a read error and
no digest. -/
theorem contentDigest_c2_amended (content : List Nat) :
    (content = [] → contentDigest content = none)
    ∧ (content ≠ [] → contentDigest content = some (fnv1a32 (digestBuf content)))
    ∧ (8192 ≤ content.length → contentDigest content = some (specContentDigest content)) := by
  refine ⟨fun he => by simp [contentDigest, he], fun hne => ?_, fun hlen => ?_⟩
  · simp [contentDigest, List.isEmpty_iff, hne]
  · have hne : content ≠ [] := by
      intro he
      rw [he] at hlen
      simp at hlen
    have hbuf : digestBuf content = content.take 8192 := by
      unfold digestBuf
      rw [min_eq_right hlen, Nat.sub_self]
      simp
    simp [contentDigest, List.isEmpty_iff, hne, hbuf, specContentDigest]

/-- Witness for the amended C2 at a file of exactly 8 KiB: the code digest
equals the spec digest there. -/
theorem contentDigest_c2_amended_witness :
    contentDigest (List.replicate 8192 7) = some (specContentDigest (List.replicate 8192 7)) :=
  (contentDigest_c2_amended (List.replicate 8192 7)).2.2 (by rw [List.length_replicate])

/-! ### Claim C6: hardlinkability implies equal metadata hashes -/

theorem areFilesHardlinkable_true (env : Env) (opt : Options) (fs : FSDev)
    (stats : LinkingStats) (ps1 ps2 : PathStat) (useDigest : Bool)
    (h : (areFilesHardlinkable env opt fs stats ps1 ps2 useDigest).1 = true) :
    ps1.stat.Size = ps2.stat.Size
    ∧ (opt.ContentOnly = false → opt.IgnoreTime = false →
        ps1.stat.Sec = ps2.stat.Sec ∧ ps1.stat.Nsec = ps2.stat.Nsec)
    ∧ (opt.ContentOnly = false → opt.IgnorePerms = false → ps1.stat.Mode = ps2.stat.Mode)
    ∧ (opt.ContentOnly = false → opt.IgnoreOwner = false →
        ps1.stat.Uid = ps2.stat.Uid ∧ ps1.stat.Gid = ps2.stat.Gid) := by
  unfold areFilesHardlinkable at h
  by_cases h1 : (ps1.stat.Ino == ps2.stat.Ino) = true
  · rw [if_pos h1] at h
    exact absurd h Bool.false_ne_true
  rw [if_neg h1] at h
  by_cases h2 : (!(ps1.stat.Size == ps2.stat.Size)) = true
  · rw [if_pos h2] at h
    exact absurd h Bool.false_ne_true
  rw [if_neg h2] at h
  by_cases h3 : (!opt.ContentOnly && !opt.IgnoreTime && !(ps1.EqualTime ps2)) = true
  · rw [if_pos h3] at h
    exact absurd h Bool.false_ne_true
  rw [if_neg h3] at h
  by_cases h4 : (!opt.ContentOnly && !opt.IgnorePerms && !(ps1.EqualMode ps2)) = true
  · rw [if_pos h4] at h
    exact absurd h Bool.false_ne_true
  rw [if_neg h4] at h
  by_cases h5 : (!opt.ContentOnly && !opt.IgnoreOwner && !(ps1.EqualOwnership ps2)) = true
  · rw [if_pos h5] at h
    exact absurd h Bool.false_ne_true
  clear h
  refine ⟨?_, ?_, ?_, ?_⟩
  · simpa using h2
  · intro hc ht
    rw [hc, ht] at h3
    simpa [PathStat.EqualTime] using h3
  · intro hc hp
    rw [hc, hp] at h4
    simpa [PathStat.EqualMode] using h4
  · intro hc ho
    rw [hc, ho] at h5
    simpa [PathStat.EqualOwnership] using h5

/-- C6: for every pair of files on the same device and every option record
whose `ContentOnly` flag, when set, also sets the three ignore flags (the
normalisation the `ContentOnly` setup function performs): if
`areFilesHardlinkable` accepts the pair, then both metadata hashes — the
`internal/inode` `HashIno` under the same ignore flags and the `fsdev.go`
`InoHash` under the same options — agree on the two stats. -/
theorem hardlinkable_equal_hashes_c6 (env : Env) (opt : Options) (fs : FSDev)
    (stats : LinkingStats) (ps1 ps2 : PathStat) (useDigest : Bool)
    (hco : opt.ContentOnly = true →
      opt.IgnoreTime = true ∧ opt.IgnorePerms = true ∧ opt.IgnoreOwner = true)
    (h : (areFilesHardlinkable env opt fs stats ps1 ps2 useDigest).1 = true) :
    HashIno ps1.stat opt.IgnoreTime opt.IgnorePerms opt.IgnoreOwner
      = HashIno ps2.stat opt.IgnoreTime opt.IgnorePerms opt.IgnoreOwner
    ∧ InoHash ps1.stat opt = InoHash ps2.stat opt := by
  obtain ⟨hsz, htm, hmd, hown⟩ := areFilesHardlinkable_true env opt fs stats ps1 ps2 useDigest h
  have htm2 : opt.IgnoreTime = false → ps1.stat.Sec = ps2.stat.Sec ∧ ps1.stat.Nsec = ps2.stat.Nsec := by
    intro ht
    rcases hc : opt.ContentOnly with _ | _
    · exact htm hc ht
    · exact absurd ((hco hc).1) (by simp [ht])
  have hmd2 : opt.IgnorePerms = false → ps1.stat.Mode = ps2.stat.Mode := by
    intro hp
    rcases hc : opt.ContentOnly with _ | _
    · exact hmd hc hp
    · exact absurd ((hco hc).2.1) (by simp [hp])
  have hown2 : opt.IgnoreOwner = false →
      ps1.stat.Uid = ps2.stat.Uid ∧ ps1.stat.Gid = ps2.stat.Gid := by
    intro ho
    rcases hc : opt.ContentOnly with _ | _
    · exact hown hc ho
    · exact absurd ((hco hc).2.2) (by simp [ho])
  constructor
  · unfold HashIno mtimUnixNano
    rcases ht : opt.IgnoreTime with _ | _ <;> rcases hp : opt.IgnorePerms with _ | _ <;>
      rcases ho : opt.IgnoreOwner with _ | _ <;>
      simp_all
  · unfold InoHash
    rcases ht : opt.IgnoreTime with _ | _
    · rcases hc : opt.ContentOnly with _ | _
      · obtain ⟨h1, h2⟩ := htm2 ht
        simp [hsz, h1, h2]
      · simp [hsz, hc]
    · simp [hsz, ht]

/-- Witness for C6 at concrete files: equal size, mtime, mode and owner,
byte-equal contents; the predicate accepts and both hashes agree. -/
theorem hardlinkable_equal_hashes_c6_witness :
    HashIno ⟨10, 1, 100, 5, 1, 0, 0, 420⟩ false false false
      = HashIno ⟨10, 2, 100, 5, 1, 0, 0, 420⟩ false false false := by
  have h := hardlinkable_equal_hashes_c6
    ⟨fun _ => [1], fun _ _ => true, fun _ _ => false, fun _ _ => true⟩
    ⟨false, false, false, false, false, false, 1⟩ (NewFSDev 1 100) NewLinkingStats
    ⟨⟨"d", "a"⟩, ⟨10, 1, 100, 5, 1, 0, 0, 420⟩⟩
    ⟨⟨"d", "b"⟩, ⟨10, 2, 100, 5, 1, 0, 0, 420⟩⟩
    false (by intro hc; exact absurd hc (by decide)) (by decide)
  exact h.1

/-! ### Claim C9: `sortSetByNlink` -/

theorem byNlinkRevLE_iff (a b : InoNlink) :
    byNlinkRevLE a b = true ↔ b.Nlink < a.Nlink ∨ (a.Nlink = b.Nlink ∧ a.Ino ≤ b.Ino) := by
  simp only [byNlinkRevLE, byNlinkLess, Bool.not_eq_true', Bool.or_eq_false_iff,
    Bool.and_eq_false_iff, decide_eq_false_iff_not, not_lt, beq_eq_false_iff_ne, ne_eq,
    beq_iff_eq]
  constructor
  · rintro ⟨h1, h2⟩
    omega
  · intro h
    refine ⟨by omega, ?_⟩
    omega

theorem byNlinkRevLE_total (a b : InoNlink) :
    byNlinkRevLE a b = true ∨ byNlinkRevLE b a = true := by
  rw [byNlinkRevLE_iff, byNlinkRevLE_iff]
  omega

theorem byNlinkRevLE_trans (a b c : InoNlink) (h1 : byNlinkRevLE a b = true)
    (h2 : byNlinkRevLE b c = true) : byNlinkRevLE a c = true := by
  rw [byNlinkRevLE_iff] at h1 h2 ⊢
  omega

theorem byNlinkRevLE_antisymm (a b : InoNlink) (h1 : byNlinkRevLE a b = true)
    (h2 : byNlinkRevLE b a = true) : a = b := by
  rw [byNlinkRevLE_iff] at h1 h2
  have hn : a.Nlink = b.Nlink := by omega
  have hi : a.Ino = b.Ino := by omega
  cases a
  cases b
  simp_all

/-- C9: `sortSetByNlink` returns a permutation of the component ordered by
descending nlink with ties broken by ascending inode number, and the sorted
record sequence is the same for every enumeration order of the component —
planning is a deterministic function of the `(ino, nlink)` contents. -/
theorem sortSetByNlink_c9 (f : FSDev) (inoSet : InoSet) :
    (sortSetByNlink f inoSet).Perm (finsetAsc inoSet)
    ∧ List.Pairwise (fun a b =>
        (f.InoStatInfo.getZ b default).Nlink < (f.InoStatInfo.getZ a default).Nlink
        ∨ ((f.InoStatInfo.getZ a default).Nlink = (f.InoStatInfo.getZ b default).Nlink
            ∧ a ≤ b)) (sortSetByNlink f inoSet)
    ∧ (∀ l1 l2 : List Ino, l1.Perm l2 →
        sortInoSeq (l1.map (fun ino => InoNlink.mk ino (f.InoStatInfo.getZ ino default).Nlink))
          = sortInoSeq (l2.map (fun ino => InoNlink.mk ino (f.InoStatInfo.getZ ino default).Nlink))) := by
  haveI instTotal : IsTotal InoNlink (fun a b => byNlinkRevLE a b = true) := ⟨byNlinkRevLE_total⟩
  haveI instTrans : IsTrans InoNlink (fun a b => byNlinkRevLE a b = true) := ⟨byNlinkRevLE_trans⟩
  haveI instAnti : IsAntisymm InoNlink (fun a b => byNlinkRevLE a b = true) := ⟨byNlinkRevLE_antisymm⟩
  refine ⟨?_, ?_, ?_⟩
  · unfold sortSetByNlink
    have hperm := List.perm_insertionSort (fun a b => byNlinkRevLE a b = true)
      ((finsetAsc inoSet).map (fun ino => InoNlink.mk ino (f.InoStatInfo.getZ ino default).Nlink))
    have := hperm.map (fun a : InoNlink => a.Ino)
    simp only [List.map_map] at this
    simpa [sortInoSeq, Function.comp_def] using this
  · unfold sortSetByNlink
    rw [List.pairwise_map]
    have hsorted := List.sorted_insertionSort (fun a b => byNlinkRevLE a b = true)
      ((finsetAsc inoSet).map (fun ino => InoNlink.mk ino (f.InoStatInfo.getZ ino default).Nlink))
    refine List.Pairwise.imp_of_mem ?_ hsorted
    intro a b ha hb hab
    have hmem : ∀ c : InoNlink,
        c ∈ sortInoSeq ((finsetAsc inoSet).map
          (fun ino => InoNlink.mk ino (f.InoStatInfo.getZ ino default).Nlink)) →
        c.Nlink = (f.InoStatInfo.getZ c.Ino default).Nlink := by
      intro c hc
      rw [sortInoSeq, (List.perm_insertionSort _ _).mem_iff, List.mem_map] at hc
      obtain ⟨ino, _, rfl⟩ := hc
      rfl
    have ha2 := hmem a ha
    have hb2 := hmem b hb
    rw [byNlinkRevLE_iff] at hab
    rw [ha2, hb2] at hab
    exact hab
  · intro l1 l2 hperm
    unfold sortInoSeq
    refine List.eq_of_perm_of_sorted ?_ (List.sorted_insertionSort _ _)
      (List.sorted_insertionSort _ _)
    exact (List.perm_insertionSort _ _).trans
      ((hperm.map _).trans (List.perm_insertionSort _ _).symm)

/-- Witness for C9: two enumeration orders of the same two-inode component
sort to the same sequence. -/
theorem sortSetByNlink_c9_witness :
    sortInoSeq ([1, 2].map (fun ino =>
        InoNlink.mk ino ((NewFSDev 1 100).InoStatInfo.getZ ino default).Nlink))
      = sortInoSeq ([2, 1].map (fun ino =>
        InoNlink.mk ino ((NewFSDev 1 100).InoStatInfo.getZ ino default).Nlink)) :=
  (sortSetByNlink_c9 (NewFSDev 1 100) {1, 2}).2.2 [1, 2] [2, 1] (by decide)

/-! ### Claim C10: `foundNewLink` grouping -/

theorem applyNewLinks_cons (r : Results) (c : Pathsplit × Pathsplit)
    (cs : List (Pathsplit × Pathsplit)) :
    r.applyNewLinks (c :: cs) = (r.foundNewLink c.1 c.2).applyNewLinks cs := rfl

theorem foundNewLink_state (G : List (List String)) (s : String) (ds : List String)
    (n : Nat) (srcP dstP : Pathsplit) :
    (Results.mk true (G ++ [s :: ds]) n).foundNewLink srcP dstP
      = if srcP.Join = s
        then ⟨true, G ++ [(s :: ds) ++ [dstP.Join]], n + 1⟩
        else ⟨true, (G ++ [s :: ds]) ++ [[srcP.Join, dstP.Join]], n + 1⟩ := by
  have hne : G ++ [s :: ds] ≠ [] := by simp
  unfold Results.foundNewLink
  simp only [if_true, dif_neg hne]
  have hlast : (G ++ [s :: ds]).getLast hne = s :: ds := List.getLast_concat _
  rw [hlast]
  simp only [List.headD_cons, List.dropLast_concat]
  by_cases hsrc : srcP.Join = s <;> simp [hsrc]

theorem applyNewLinks_run (calls : List (Pathsplit × Pathsplit)) :
    ∀ (G : List (List String)) (s : String) (ds : List String) (n : Nat),
      (Results.applyNewLinks ⟨true, G ++ [s :: ds], n⟩ calls).LinkPaths
        = G ++ ((s :: ds) ++ (takeRun s calls).1) :: specGroups (takeRun s calls).2.1 := by
  induction calls with
  | nil =>
    intro G s ds n
    simp [Results.applyNewLinks, takeRun, specGroups]
  | cons c cs ih =>
    intro G s ds n
    rw [applyNewLinks_cons, foundNewLink_state]
    by_cases hsrc : c.1.Join = s
    · rw [if_pos hsrc]
      rw [show (s :: ds) ++ [c.2.Join] = s :: (ds ++ [c.2.Join]) by simp]
      rw [ih G s (ds ++ [c.2.Join]) (n + 1)]
      simp only [takeRun, hsrc, if_pos]
      simp
    · rw [if_neg hsrc]
      rw [show (G ++ [s :: ds]) ++ [[c.1.Join, c.2.Join]]
            = (G ++ [s :: ds]) ++ [c.1.Join :: [c.2.Join]] by simp]
      rw [ih (G ++ [s :: ds]) c.1.Join [c.2.Join] (n + 1)]
      conv_rhs => rw [show (takeRun s (c :: cs)).1 = [] by simp [takeRun, hsrc]]
      conv_rhs => rw [show (takeRun s (c :: cs)).2.1 = c :: cs by simp [takeRun, hsrc]]
      rw [show specGroups (c :: cs)
            = (c.1.Join :: c.2.Join :: (takeRun c.1.Join cs).1)
                :: specGroups (takeRun c.1.Join cs).2.1 by rw [specGroups]]
      simp

theorem specGroups_shape (calls : List (Pathsplit × Pathsplit)) :
    ∀ g ∈ specGroups calls, ∃ src dst rest, g = src :: dst :: rest := by
  induction calls using specGroups.induct with
  | case1 => simp [specGroups]
  | case2 c cs r ih =>
    intro g hg
    rw [specGroups] at hg
    rcases List.mem_cons.1 hg with hg | hg
    · exact ⟨c.1.Join, c.2.Join, (takeRun c.1.Join cs).1, hg⟩
    · exact ih g hg

/-- C10: starting from empty results with new-link storage enabled, any
sequence of `foundNewLink` calls leaves `LinkPaths` equal to the run
decomposition of the call sequence: one group per maximal run of
consecutive calls with the same source, the group being that source
followed by the run's destinations.  Hence every group has at least two
elements, its first element is the group's source, and two consecutive
recorded links share a group exactly when their sources coincide. -/
theorem foundNewLink_groups_c10 (calls : List (Pathsplit × Pathsplit)) :
    (Results.applyNewLinks ⟨true, [], 0⟩ calls).LinkPaths = specGroups calls
    ∧ ∀ g ∈ specGroups calls, 2 ≤ g.length := by
  constructor
  · match calls with
    | [] => simp [Results.applyNewLinks, specGroups]
    | c :: cs =>
      rw [applyNewLinks_cons]
      have hstep : (Results.mk true ([] : List (List String)) 0).foundNewLink c.1 c.2
          = ⟨true, [] ++ [c.1.Join :: [c.2.Join]], 1⟩ := by
        unfold Results.foundNewLink
        simp
      rw [hstep, applyNewLinks_run cs [] c.1.Join [c.2.Join] 1]
      rw [show specGroups (c :: cs)
            = (c.1.Join :: c.2.Join :: (takeRun c.1.Join cs).1)
                :: specGroups (takeRun c.1.Join cs).2.1 by rw [specGroups]]
      simp
  · intro g hg
    obtain ⟨src, dst, rest, rfl⟩ := specGroups_shape calls g hg
    simp

/-- Witness for C10: the single group produced by one recorded link has at
least two elements. -/
theorem foundNewLink_groups_c10_witness :
    2 ≤ ([(Pathsplit.mk "d" "a").Join, (Pathsplit.mk "d" "x").Join]).length := by
  have hspec : specGroups [((⟨"d", "a"⟩ : Pathsplit), (⟨"d", "x"⟩ : Pathsplit))]
      = [[(Pathsplit.mk "d" "a").Join, (Pathsplit.mk "d" "x").Join]] := by
    rw [specGroups]
    simp [takeRun, specGroups]
  exact (foundNewLink_groups_c10 [(⟨"d", "a"⟩, ⟨"d", "x"⟩)]).2 _
    (by rw [hspec]; exact List.mem_singleton.2 rfl)

/-! ### Claim C4: digest partitions and the `BugIf` assertions -/

theorem helperPathStatDigest_fields (fs : FSDev) (ps : PathStat) (d : Digest) :
    (helperPathStatDigest fs ps d).InoHashes = fs.InoHashes
    ∧ (helperPathStatDigest fs ps d).InoStatInfo = fs.InoStatInfo
    ∧ (helperPathStatDigest fs ps d).InoPaths = fs.InoPaths
    ∧ (helperPathStatDigest fs ps d).LinkedInos = fs.LinkedInos
    ∧ (helperPathStatDigest fs ps d).MaxNLinks = fs.MaxNLinks := by
  unfold helperPathStatDigest
  split <;> exact ⟨rfl, rfl, rfl, rfl, rfl⟩

theorem helperPathStatDigest_inosWithDigest (fs : FSDev) (ps : PathStat) (d : Digest) :
    (helperPathStatDigest fs ps d).InosWithDigest
      = Insert.insert ps.stat.Ino fs.InosWithDigest := by
  unfold helperPathStatDigest
  split <;> rfl

theorem digestSetsInv_helper (fs : FSDev) (ps : PathStat) (d : Digest)
    (h : DigestSetsInv fs) : DigestSetsInv (helperPathStatDigest fs ps d) := by
  intro d2
  unfold helperPathStatDigest
  split
  · dsimp only
    by_cases hd : d2 = d
    · subst hd
      rw [GoMap.lookup_insert_self]
      intro x hx
      simp only [Option.getD_some, Finset.mem_singleton] at hx
      subst hx
      exact Finset.mem_insert_self _ _
    · rw [GoMap.lookup_insert_ne _ _ hd]
      exact (h d2).trans (Finset.subset_insert _ _)
  · rename_i s heq
    dsimp only
    by_cases hd : d2 = d
    · subst hd
      rw [GoMap.lookup_insert_self]
      have hs : s ⊆ fs.InosWithDigest := by
        have h2 := h d2
        rw [heq] at h2
        simpa using h2
      intro x hx
      simp only [Option.getD_some] at hx
      rcases Finset.mem_insert.1 hx with hx | hx
      · exact hx ▸ Finset.mem_insert_self _ _
      · exact Finset.mem_insert_of_mem (hs hx)
    · rw [GoMap.lookup_insert_ne _ _ hd]
      exact (h d2).trans (Finset.subset_insert _ _)

theorem addPathStatDigest_fields (fs : FSDev) (ps : PathStat) (d : Digest) :
    (addPathStatDigest fs ps d).InoHashes = fs.InoHashes
    ∧ (addPathStatDigest fs ps d).InoStatInfo = fs.InoStatInfo
    ∧ (addPathStatDigest fs ps d).InoPaths = fs.InoPaths
    ∧ (addPathStatDigest fs ps d).LinkedInos = fs.LinkedInos
    ∧ (addPathStatDigest fs ps d).MaxNLinks = fs.MaxNLinks := by
  unfold addPathStatDigest
  split
  · exact ⟨rfl, rfl, rfl, rfl, rfl⟩
  · exact helperPathStatDigest_fields fs ps d

theorem digestSetsInv_addPathStatDigest (fs : FSDev) (ps : PathStat) (d : Digest)
    (h : DigestSetsInv fs) : DigestSetsInv (addPathStatDigest fs ps d) := by
  unfold addPathStatDigest
  split
  · exact h
  · exact digestSetsInv_helper fs ps d h

theorem addPathStatDigest_mem_inosWithDigest (fs : FSDev) (ps : PathStat) (d : Digest) :
    ps.stat.Ino ∈ (addPathStatDigest fs ps d).InosWithDigest := by
  unfold addPathStatDigest
  split
  · assumption
  · rw [helperPathStatDigest_inosWithDigest]
    exact Finset.mem_insert_self _ _

theorem newPathStatDigest_fields (env : Env) (fs : FSDev) (stats : LinkingStats)
    (ps : PathStat) :
    (newPathStatDigest env fs stats ps).1.InoHashes = fs.InoHashes
    ∧ (newPathStatDigest env fs stats ps).1.InoStatInfo = fs.InoStatInfo
    ∧ (newPathStatDigest env fs stats ps).1.InoPaths = fs.InoPaths
    ∧ (newPathStatDigest env fs stats ps).1.LinkedInos = fs.LinkedInos
    ∧ (newPathStatDigest env fs stats ps).1.MaxNLinks = fs.MaxNLinks
    ∧ (DigestSetsInv fs → DigestSetsInv (newPathStatDigest env fs stats ps).1) := by
  unfold newPathStatDigest
  split
  · exact ⟨rfl, rfl, rfl, rfl, rfl, fun h => h⟩
  · split
    · rename_i d stats2 heq
      exact ⟨(helperPathStatDigest_fields fs ps d).1, (helperPathStatDigest_fields fs ps d).2.1,
        (helperPathStatDigest_fields fs ps d).2.2.1, (helperPathStatDigest_fields fs ps d).2.2.2.1,
        (helperPathStatDigest_fields fs ps d).2.2.2.2, digestSetsInv_helper fs ps d⟩
    · exact ⟨rfl, rfl, rfl, rfl, rfl, fun h => h⟩

theorem areFilesHardlinkable_effects (env : Env) (opt : Options) (fs : FSDev)
    (stats : LinkingStats) (ps1 ps2 : PathStat) (useDigest : Bool) :
    (areFilesHardlinkable env opt fs stats ps1 ps2 useDigest).2.1.InoHashes = fs.InoHashes
    ∧ (areFilesHardlinkable env opt fs stats ps1 ps2 useDigest).2.1.InoStatInfo = fs.InoStatInfo
    ∧ (areFilesHardlinkable env opt fs stats ps1 ps2 useDigest).2.1.InoPaths = fs.InoPaths
    ∧ (areFilesHardlinkable env opt fs stats ps1 ps2 useDigest).2.1.LinkedInos = fs.LinkedInos
    ∧ (areFilesHardlinkable env opt fs stats ps1 ps2 useDigest).2.1.MaxNLinks = fs.MaxNLinks
    ∧ (DigestSetsInv fs → DigestSetsInv (areFilesHardlinkable env opt fs stats ps1 ps2 useDigest).2.1)
    ∧ (useDigest = false →
        (areFilesHardlinkable env opt fs stats ps1 ps2 useDigest).2.1 = fs
        ∧ (areFilesHardlinkable env opt fs stats ps1 ps2 useDigest).2.2.digestComputedCount
            = stats.digestComputedCount) := by
  unfold areFilesHardlinkable
  by_cases h1 : (ps1.stat.Ino == ps2.stat.Ino) = true
  · rw [if_pos h1]
    exact ⟨rfl, rfl, rfl, rfl, rfl, fun h => h, fun _ => ⟨rfl, rfl⟩⟩
  rw [if_neg h1]
  by_cases h2 : (!(ps1.stat.Size == ps2.stat.Size)) = true
  · rw [if_pos h2]
    exact ⟨rfl, rfl, rfl, rfl, rfl, fun h => h, fun _ => ⟨rfl, rfl⟩⟩
  rw [if_neg h2]
  by_cases h3 : (!opt.ContentOnly && !opt.IgnoreTime && !(ps1.EqualTime ps2)) = true
  · rw [if_pos h3]
    exact ⟨rfl, rfl, rfl, rfl, rfl, fun h => h, fun _ => ⟨rfl, rfl⟩⟩
  rw [if_neg h3]
  by_cases h4 : (!opt.ContentOnly && !opt.IgnorePerms && !(ps1.EqualMode ps2)) = true
  · rw [if_pos h4]
    exact ⟨rfl, rfl, rfl, rfl, rfl, fun h => h, fun _ => ⟨rfl, rfl⟩⟩
  rw [if_neg h4]
  by_cases h5 : (!opt.ContentOnly && !opt.IgnoreOwner && !(ps1.EqualOwnership ps2)) = true
  · rw [if_pos h5]
    exact ⟨rfl, rfl, rfl, rfl, rfl, fun h => h, fun _ => ⟨rfl, rfl⟩⟩
  rw [if_neg h5]
  by_cases h6 : (!opt.ContentOnly && !opt.IgnoreXattr && !(env.equalXAttrsVal ps1.path ps2.path)) = true
  · rw [if_pos h6]
    exact ⟨rfl, rfl, rfl, rfl, rfl, fun h => h, fun _ => ⟨rfl, rfl⟩⟩
  rw [if_neg h6]
  rcases hud : useDigest with _ | _
  · rw [if_neg (show ¬(false = true) from Bool.false_ne_true)]
    dsimp only
    by_cases heq : env.contentsEqualVal ps1.path ps2.path = true
    · rw [if_pos heq]
      refine ⟨rfl, rfl, rfl, rfl, rfl, fun h => h, fun _ => ⟨rfl, ?_⟩⟩
      dsimp only
      rw [apply_ite LinkingStats.digestComputedCount, apply_ite LinkingStats.digestComputedCount,
        apply_ite LinkingStats.digestComputedCount, apply_ite LinkingStats.digestComputedCount,
        apply_ite LinkingStats.digestComputedCount]
      simp
    · rw [if_neg heq]
      exact ⟨rfl, rfl, rfl, rfl, rfl, fun h => h, fun _ => ⟨rfl, rfl⟩⟩
  · rw [if_pos rfl]
    dsimp only
    have hf1 := newPathStatDigest_fields env fs stats ps1
    have hf2 := newPathStatDigest_fields env (newPathStatDigest env fs stats ps1).1
      (newPathStatDigest env fs stats ps1).2 ps2
    by_cases heq : env.contentsEqualVal ps1.path ps2.path = true
    · rw [if_pos heq]
      exact ⟨hf2.1.trans hf1.1, hf2.2.1.trans hf1.2.1, hf2.2.2.1.trans hf1.2.2.1,
        hf2.2.2.2.1.trans hf1.2.2.2.1, hf2.2.2.2.2.1.trans hf1.2.2.2.2.1,
        fun h => hf2.2.2.2.2.2 (hf1.2.2.2.2.2 h), fun hc => absurd hc (by simp)⟩
    · rw [if_neg heq]
      exact ⟨hf2.1.trans hf1.1, hf2.2.1.trans hf1.2.1, hf2.2.2.1.trans hf1.2.2.1,
        hf2.2.2.2.1.trans hf1.2.2.2.1, hf2.2.2.2.2.1.trans hf1.2.2.2.2.1,
        fun h => hf2.2.2.2.2.2 (hf1.2.2.2.2.2 h), fun hc => absurd hc (by simp)⟩

theorem addLinkableInos_fields (f : FSDev) (a b : Ino) :
    (addLinkableInos f a b).InoHashes = f.InoHashes
    ∧ (addLinkableInos f a b).InoStatInfo = f.InoStatInfo
    ∧ (addLinkableInos f a b).InoPaths = f.InoPaths
    ∧ (addLinkableInos f a b).DigestIno = f.DigestIno
    ∧ (addLinkableInos f a b).InosWithDigest = f.InosWithDigest
    ∧ (addLinkableInos f a b).MaxNLinks = f.MaxNLinks := by
  unfold addLinkableInos
  split <;> dsimp only <;> split <;> exact ⟨rfl, rfl, rfl, rfl, rfl, rfl⟩

theorem digestSetsInv_addLinkableInos (f : FSDev) (a b : Ino)
    (h : DigestSetsInv f) : DigestSetsInv (addLinkableInos f a b) := by
  intro d
  rw [(addLinkableInos_fields f a b).2.2.2.1, (addLinkableInos_fields f a b).2.2.2.2.1]
  exact h d

theorem searchLoop_effects (env : Env) (opt : Options) (useDigest : Bool)
    (curPathStat : PathStat) (seq : List Ino) (f : FSDev) (stats : LinkingStats) :
    (searchLoop env opt useDigest curPathStat seq f stats).2.1.InoHashes = f.InoHashes
    ∧ (searchLoop env opt useDigest curPathStat seq f stats).2.1.InoStatInfo = f.InoStatInfo
    ∧ (searchLoop env opt useDigest curPathStat seq f stats).2.1.InoPaths = f.InoPaths
    ∧ (searchLoop env opt useDigest curPathStat seq f stats).2.1.MaxNLinks = f.MaxNLinks
    ∧ (DigestSetsInv f → DigestSetsInv (searchLoop env opt useDigest curPathStat seq f stats).2.1)
    ∧ (useDigest = false →
        (searchLoop env opt useDigest curPathStat seq f stats).2.1.DigestIno = f.DigestIno
        ∧ (searchLoop env opt useDigest curPathStat seq f stats).2.1.InosWithDigest
            = f.InosWithDigest
        ∧ (searchLoop env opt useDigest curPathStat seq f stats).2.2.digestComputedCount
            = stats.digestComputedCount) := by
  induction seq generalizing f stats with
  | nil => exact ⟨rfl, rfl, rfl, rfl, fun h => h, fun _ => ⟨rfl, rfl, rfl⟩⟩
  | cons cachedIno rest ih =>
    unfold searchLoop
    dsimp only
    split
    · rename_i f2 st2 heq
      have heff := areFilesHardlinkable_effects env opt f
        { stats with numInoSeqIterations := stats.numInoSeqIterations + 1 }
        (PathStatFromIno f cachedIno) curPathStat useDigest
      rw [heq] at heff
      dsimp only at heff
      dsimp only
      have hadd := addLinkableInos_fields f2 (PathStatFromIno f cachedIno).stat.Ino
        curPathStat.stat.Ino
      refine ⟨hadd.1.trans heff.1, hadd.2.1.trans heff.2.1, hadd.2.2.1.trans heff.2.2.1,
        hadd.2.2.2.2.2.trans heff.2.2.2.2.1,
        fun h => digestSetsInv_addLinkableInos _ _ _ (heff.2.2.2.2.2.1 h), ?_⟩
      intro hud
      obtain ⟨hfs, hcnt⟩ := heff.2.2.2.2.2.2 hud
      exact ⟨hadd.2.2.2.1.trans (by rw [hfs]), hadd.2.2.2.2.1.trans (by rw [hfs]), hcnt⟩
    · rename_i f2 st2 heq
      have heff := areFilesHardlinkable_effects env opt f
        { stats with numInoSeqIterations := stats.numInoSeqIterations + 1 }
        (PathStatFromIno f cachedIno) curPathStat useDigest
      rw [heq] at heff
      dsimp only at heff
      have ihx := ih f2 st2
      refine ⟨ihx.1.trans heff.1, ihx.2.1.trans heff.2.1, ihx.2.2.1.trans heff.2.2.1,
        ihx.2.2.2.1.trans heff.2.2.2.2.1, fun h => ihx.2.2.2.2.1 (heff.2.2.2.2.2.1 h), ?_⟩
      intro hud
      obtain ⟨hfs, hcnt⟩ := heff.2.2.2.2.2.2 hud
      refine ⟨(ihx.2.2.2.2.2 hud).1.trans (by rw [hfs]), ?_, ?_⟩
      · exact (ihx.2.2.2.2.2 hud).2.1.trans (by rw [hfs])
      · exact (ihx.2.2.2.2.2 hud).2.2.trans hcnt

theorem digestEscalation_effects (env : Env) (f : FSDev) (stats : LinkingStats)
    (curPathStat : PathStat) (cachedInoSet : InoSet) :
    (digestEscalation env f stats curPathStat cachedInoSet).2.1.InoHashes = f.InoHashes
    ∧ (digestEscalation env f stats curPathStat cachedInoSet).2.1.InoStatInfo = f.InoStatInfo
    ∧ (digestEscalation env f stats curPathStat cachedInoSet).2.1.InoPaths = f.InoPaths
    ∧ (digestEscalation env f stats curPathStat cachedInoSet).2.1.LinkedInos = f.LinkedInos
    ∧ (digestEscalation env f stats curPathStat cachedInoSet).2.1.MaxNLinks = f.MaxNLinks
    ∧ (DigestSetsInv f →
        DigestSetsInv (digestEscalation env f stats curPathStat cachedInoSet).2.1) := by
  unfold digestEscalation
  rcases hd : runContentDigest env curPathStat.path stats with ⟨od, stats2⟩
  rcases od with _ | d
  · exact ⟨rfl, rfl, rfl, rfl, rfl, fun h => h⟩
  · dsimp only
    have hf := addPathStatDigest_fields f curPathStat d
    exact ⟨hf.1, hf.2.1, hf.2.2.1, hf.2.2.2.1, hf.2.2.2.2,
      digestSetsInv_addPathStatDigest f curPathStat d⟩

theorem searchLoop_digestInv_of_eq {env : Env} {opt : Options} {ud : Bool}
    {cur : PathStat} {seq : List Ino} {f0 : FSDev} {st0 : LinkingStats}
    {b : Bool} {f2 : FSDev} {st2 : LinkingStats}
    (heq : searchLoop env opt ud cur seq f0 st0 = (b, f2, st2))
    (h : DigestSetsInv f0) : DigestSetsInv f2 := by
  have hx := (searchLoop_effects env opt ud cur seq f0 st0).2.2.2.2.1 h
  rw [heq] at hx
  exact hx

theorem searchAndUpdate_digestSetsInv (env : Env) (opt : Options) (f : FSDev)
    (stats : LinkingStats) (curPathStat : PathStat) (inoHash : Hash)
    (h : DigestSetsInv f) :
    DigestSetsInv (searchAndUpdate env opt f stats curPathStat inoHash).1 := by
  unfold searchAndUpdate
  dsimp only
  have hescInv : DigestSetsInv
      (if (useDigestFlag opt (f.InoHashes.getZ inoHash ∅).card) = true
        then digestEscalation env f
          { stats with numInoSeqSearches := stats.numInoSeqSearches + 1 } curPathStat
          (f.InoHashes.getZ inoHash ∅)
        else (finsetAsc (f.InoHashes.getZ inoHash ∅), f,
          { stats with numInoSeqSearches := stats.numInoSeqSearches + 1 })).2.1 := by
    split
    · exact (digestEscalation_effects env f _ curPathStat _).2.2.2.2.2 h
    · exact h
  split
  · rename_i f2 st2 heq
    exact searchLoop_digestInv_of_eq heq hescInv
  · rename_i f2 st2 heq
    intro d
    exact searchLoop_digestInv_of_eq heq hescInv d

theorem foundHashBranch_digestSetsInv (env : Env) (opt : Options) (f : FSDev)
    (stats : LinkingStats) (curPathStat : PathStat) (inoHash : Hash) (hashedInos : InoSet)
    (h : DigestSetsInv f) :
    DigestSetsInv (foundHashBranch env opt f stats curPathStat inoHash hashedInos).1 := by
  unfold foundHashBranch
  dsimp only
  split
  · exact h
  · exact searchAndUpdate_digestSetsInv env opt f _ curPathStat inoHash h

theorem findIdenticalFiles_digestSetsInv (env : Env) (opt : Options) (f : FSDev)
    (stats : LinkingStats) (curPath : Pathsplit) (statInfo : StatInfo)
    (h : DigestSetsInv f) :
    DigestSetsInv (findIdenticalFiles env opt f stats curPath statInfo).1 := by
  unfold findIdenticalFiles
  dsimp only
  set r := match f.InoHashes.lookup (InoHash statInfo opt) with
    | none => ({ f with InoHashes := f.InoHashes.insert (InoHash statInfo opt) {statInfo.Ino} },
        { (if (f.InoStatInfo.lookup statInfo.Ino).isSome = true then stats
           else { stats with numInodes := stats.numInodes + 1 }) with
          numMissedHashes := (if (f.InoStatInfo.lookup statInfo.Ino).isSome = true then stats
           else { stats with numInodes := stats.numInodes + 1 }).numMissedHashes + 1 })
    | some hashedInos => foundHashBranch env opt f
        (if (f.InoStatInfo.lookup statInfo.Ino).isSome = true then stats
         else { stats with numInodes := stats.numInodes + 1 })
        ⟨curPath, statInfo⟩ (InoHash statInfo opt) hashedInos with hr
  have hrInv : DigestSetsInv r.1 := by
    rw [hr]
    rcases f.InoHashes.lookup (InoHash statInfo opt) with _ | hashedInos
    · exact h
    · exact foundHashBranch_digestSetsInv env opt f _ _ _ hashedInos h
  intro d
  unfold InoAppendPathname
  exact hrInv d

/-- C4: away from the initial state, the digest cache invariant holds and is
preserved by every ingestion; under it, at every digest escalation point
(after the current inode's digest is registered) the three candidate
partitions are pairwise disjoint, the ingested inode is not in the
no-digest partition, and both `BugIf` conditions are false. -/
theorem digest_partitions_c4 :
    (∀ dev maxNLinks, DigestSetsInv (NewFSDev dev maxNLinks))
    ∧ (∀ env opt f stats curPath statInfo, DigestSetsInv f →
        DigestSetsInv (findIdenticalFiles env opt f stats curPath statInfo).1)
    ∧ (∀ (f : FSDev) (cached : InoSet) (d : Digest) (ps : PathStat), DigestSetsInv f →
        (ps.stat.Ino ∉ (digestPartition cached (addPathStatDigest f ps d) d).1)
        ∧ Disjoint (digestPartition cached (addPathStatDigest f ps d) d).2.1
            (digestPartition cached (addPathStatDigest f ps d) d).1
        ∧ Disjoint (digestPartition cached (addPathStatDigest f ps d) d).2.1
            (digestPartition cached (addPathStatDigest f ps d) d).2.2
        ∧ Disjoint (digestPartition cached (addPathStatDigest f ps d) d).1
            (digestPartition cached (addPathStatDigest f ps d) d).2.2
        ∧ bugNewInoInNoDigestSet cached (addPathStatDigest f ps d) d ps.stat.Ino = false
        ∧ bugOverlappingDigestSets cached (addPathStatDigest f ps d) d = false) := by
  refine ⟨?_, ?_, ?_⟩
  · intro dev maxNLinks d
    simp [NewFSDev]
  · intro env opt f stats curPath statInfo h
    exact findIdenticalFiles_digestSetsInv env opt f stats curPath statInfo h
  · intro f cached d ps h
    have hinv : DigestSetsInv (addPathStatDigest f ps d) := digestSetsInv_addPathStatDigest f ps d h
    have hmem : ps.stat.Ino ∈ (addPathStatDigest f ps d).InosWithDigest :=
      addPathStatDigest_mem_inosWithDigest f ps d
    have hno : ps.stat.Ino ∉ (digestPartition cached (addPathStatDigest f ps d) d).1 := by
      unfold digestPartition
      intro hx
      exact (Finset.mem_sdiff.1 hx).2 hmem
    have hsn : Disjoint (digestPartition cached (addPathStatDigest f ps d) d).2.1
        (digestPartition cached (addPathStatDigest f ps d) d).1 := by
      unfold digestPartition
      rw [Finset.disjoint_left]
      intro x hx1 hx2
      have hxd : x ∈ ((addPathStatDigest f ps d).DigestIno.lookup d).getD ∅ := by
        have := (Finset.mem_inter.1 hx1).2
        simpa [GoMap.getZ] using this
      exact (Finset.mem_sdiff.1 hx2).2 (hinv d hxd)
    have hsd : Disjoint (digestPartition cached (addPathStatDigest f ps d) d).2.1
        (digestPartition cached (addPathStatDigest f ps d) d).2.2 := by
      unfold digestPartition
      rw [Finset.disjoint_left]
      intro x hx1 hx2
      exact ((Finset.mem_sdiff.1 (Finset.mem_sdiff.1 hx2).1).2) hx1
    have hnd : Disjoint (digestPartition cached (addPathStatDigest f ps d) d).1
        (digestPartition cached (addPathStatDigest f ps d) d).2.2 := by
      unfold digestPartition
      rw [Finset.disjoint_left]
      intro x hx1 hx2
      exact (Finset.mem_sdiff.1 hx2).2 hx1
    refine ⟨hno, hsn, hsd, hnd, ?_, ?_⟩
    · unfold bugNewInoInNoDigestSet
      simp only [decide_eq_false_iff_not]
      exact hno
    · unfold bugOverlappingDigestSets
      simp only [decide_eq_false_iff_not, not_lt, Nat.le_zero, Finset.card_eq_zero]
      rw [Finset.eq_empty_iff_forall_not_mem]
      intro x hx
      rw [Finset.mem_inter, Finset.mem_inter] at hx
      exact (Finset.disjoint_left.1 hsn) hx.1.1 hx.2

/-- Witness for C4 at the empty digest cache: the partition of the bucket
`{1, 2}` after registering inode 2's digest has no overlaps and excludes
the ingested inode from the no-digest set. -/
theorem digest_partitions_c4_witness :
    bugNewInoInNoDigestSet {1, 2}
        (addPathStatDigest (NewFSDev 1 100) ⟨⟨"d", "b"⟩, ⟨10, 2, 100, 5, 1, 0, 0, 420⟩⟩ 7) 7 2
      = false
    ∧ bugOverlappingDigestSets {1, 2}
        (addPathStatDigest (NewFSDev 1 100) ⟨⟨"d", "b"⟩, ⟨10, 2, 100, 5, 1, 0, 0, 420⟩⟩ 7) 7
      = false := by
  have h := (digest_partitions_c4.2.2 (NewFSDev 1 100) {1, 2} 7
    ⟨⟨"d", "b"⟩, ⟨10, 2, 100, 5, 1, 0, 0, 420⟩⟩
    (by intro d; simp [NewFSDev]))
  exact ⟨h.2.2.2.2.1, h.2.2.2.2.2⟩

/-! ### Claim C3: digest escalation -/

theorem searchAndUpdate_digestCount (env : Env) (opt : Options) (f : FSDev)
    (stats : LinkingStats) (curPathStat : PathStat) (inoHash : Hash)
    (hth : opt.LinearSearchThresh = -1) :
    (searchAndUpdate env opt f stats curPathStat inoHash).2.digestComputedCount
      = stats.digestComputedCount := by
  unfold searchAndUpdate
  dsimp only
  have hud : useDigestFlag opt (f.InoHashes.getZ inoHash ∅).card = false := by
    unfold useDigestFlag
    rw [hth]
    simp
  rw [hud]
  rw [if_neg (show ¬(false = true) from Bool.false_ne_true)]
  split
  · rename_i f2 st2 heq
    have hx := ((searchLoop_effects env opt false curPathStat
      (finsetAsc (f.InoHashes.getZ inoHash ∅)) f
      { stats with numInoSeqSearches := stats.numInoSeqSearches + 1 }).2.2.2.2.2 rfl).2.2
    rw [heq] at hx
    exact hx
  · rename_i f2 st2 heq
    have hx := ((searchLoop_effects env opt false curPathStat
      (finsetAsc (f.InoHashes.getZ inoHash ∅)) f
      { stats with numInoSeqSearches := stats.numInoSeqSearches + 1 }).2.2.2.2.2 rfl).2.2
    rw [heq] at hx
    exact hx

theorem foundHashBranch_digestCount (env : Env) (opt : Options) (f : FSDev)
    (stats : LinkingStats) (curPathStat : PathStat) (inoHash : Hash) (hashedInos : InoSet)
    (hth : opt.LinearSearchThresh = -1) :
    (foundHashBranch env opt f stats curPathStat inoHash hashedInos).2.digestComputedCount
      = stats.digestComputedCount := by
  unfold foundHashBranch
  dsimp only
  split
  · split <;> rfl
  · rw [searchAndUpdate_digestCount env opt f _ curPathStat inoHash hth]
    split <;> rfl

theorem findIdenticalFiles_digestCount (env : Env) (opt : Options) (f : FSDev)
    (stats : LinkingStats) (curPath : Pathsplit) (statInfo : StatInfo)
    (hth : opt.LinearSearchThresh = -1) :
    (findIdenticalFiles env opt f stats curPath statInfo).2.digestComputedCount
      = stats.digestComputedCount := by
  unfold findIdenticalFiles
  dsimp only
  split
  · split <;> rfl
  · rw [foundHashBranch_digestCount env opt f _ _ _ _ hth]
    split <;> rfl

/-- C3: digest escalation happens exactly when the search threshold is
non-negative and the cached bucket is longer than it (the `useDigest`
flag); in digest mode, after a successful digest the candidate sequence is
the same-digest partition followed by the no-digest partition, and no
different-digest inode is ever searched; and with `SearchThresh = -1` the
digest-computed counter never moves — in particular it stays zero over any
ingestion sequence from a fresh engine. -/
theorem digest_escalation_c3 :
    (∀ (opt : Options) (n : Nat), useDigestFlag opt n = true ↔
        0 ≤ opt.LinearSearchThresh ∧ opt.LinearSearchThresh < (n : Int))
    ∧ (∀ env (f : FSDev) stats (cur : PathStat) (cached : InoSet) (d : Digest) stats2,
        runContentDigest env cur.path stats = (some d, stats2) →
        (digestEscalation env f stats cur cached).1
            = finsetAsc (digestPartition cached (addPathStatDigest f cur d) d).2.1
              ++ finsetAsc (digestPartition cached (addPathStatDigest f cur d) d).1
          ∧ ∀ i ∈ (digestPartition cached (addPathStatDigest f cur d) d).2.2,
              i ∉ (digestEscalation env f stats cur cached).1)
    ∧ (∀ env opt f stats curPath statInfo, opt.LinearSearchThresh = -1 →
        (findIdenticalFiles env opt f stats curPath statInfo).2.digestComputedCount
          = stats.digestComputedCount)
    ∧ (∀ env (opt : Options) (f0 : FSDev) (inputs : List (Pathsplit × StatInfo)),
        opt.LinearSearchThresh = -1 →
        (inputs.foldl (fun acc pi => findIdenticalFiles env opt acc.1 acc.2 pi.1 pi.2)
            (f0, NewLinkingStats)).2.digestComputedCount = 0) := by
  refine ⟨?_, ?_, ?_, ?_⟩
  · intro opt n
    unfold useDigestFlag
    simp
  · intro env f stats cur cached d stats2 hrun
    have hesc : digestEscalation env f stats cur cached
        = (finsetAsc (digestPartition cached (addPathStatDigest f cur d) d).2.1
            ++ finsetAsc (digestPartition cached (addPathStatDigest f cur d) d).1,
           addPathStatDigest f cur d, stats2) := by
      unfold digestEscalation
      rw [hrun]
    refine ⟨by rw [hesc], ?_⟩
    intro i hid
    rw [hesc]
    dsimp only
    intro hmem
    rcases List.mem_append.1 hmem with hmem | hmem
    · rw [mem_finsetAsc] at hmem
      unfold digestPartition at hid
      have := (Finset.mem_sdiff.1 (Finset.mem_sdiff.1 hid).1).2
      exact this hmem
    · rw [mem_finsetAsc] at hmem
      unfold digestPartition at hid
      exact (Finset.mem_sdiff.1 hid).2 hmem
  · intro env opt f stats curPath statInfo hth
    exact findIdenticalFiles_digestCount env opt f stats curPath statInfo hth
  · intro env opt f0 inputs hth
    suffices hgen : ∀ (start : FSDev × LinkingStats),
        (inputs.foldl (fun acc pi => findIdenticalFiles env opt acc.1 acc.2 pi.1 pi.2)
            start).2.digestComputedCount = start.2.digestComputedCount by
      exact hgen (f0, NewLinkingStats)
    induction inputs with
    | nil => intro start; rfl
    | cons pi rest ih =>
      intro start
      rw [List.foldl_cons]
      rw [ih ((findIdenticalFiles env opt start.1 start.2 pi.1 pi.2))]
      exact findIdenticalFiles_digestCount env opt start.1 start.2 pi.1 pi.2 hth

/-- Witness for C3: one ingestion with `SearchThresh = -1` leaves the digest
counter at zero. -/
theorem digest_escalation_c3_witness :
    ([((⟨"d", "a"⟩ : Pathsplit), (⟨10, 1, 100, 5, 1, 0, 0, 420⟩ : StatInfo))].foldl
        (fun acc pi => findIdenticalFiles
          ⟨fun _ => [1], fun _ _ => true, fun _ _ => false, fun _ _ => true⟩
          ⟨false, false, false, false, false, false, -1⟩ acc.1 acc.2 pi.1 pi.2)
        (NewFSDev 1 100, NewLinkingStats)).2.digestComputedCount = 0 :=
  digest_escalation_c3.2.2.2
    ⟨fun _ => [1], fun _ _ => true, fun _ _ => false, fun _ _ => true⟩
    ⟨false, false, false, false, false, false, -1⟩ (NewFSDev 1 100)
    [(⟨"d", "a"⟩, ⟨10, 1, 100, 5, 1, 0, 0, 420⟩)] rfl

/-! ### Claim C1: index equivalence after ingestion -/

theorem searchLoop_index_of_eq {env : Env} {opt : Options} {ud : Bool}
    {cur : PathStat} {seq : List Ino} {f0 : FSDev} {st0 : LinkingStats}
    {b : Bool} {f2 : FSDev} {st2 : LinkingStats}
    (heq : searchLoop env opt ud cur seq f0 st0 = (b, f2, st2)) :
    f2.InoHashes = f0.InoHashes ∧ f2.InoStatInfo = f0.InoStatInfo
      ∧ f2.InoPaths = f0.InoPaths := by
  have hx := searchLoop_effects env opt ud cur seq f0 st0
  rw [heq] at hx
  exact ⟨hx.1, hx.2.1, hx.2.2.1⟩

theorem searchAndUpdate_index_effects (env : Env) (opt : Options) (f : FSDev)
    (stats : LinkingStats) (curPathStat : PathStat) (inoHash : Hash) :
    (searchAndUpdate env opt f stats curPathStat inoHash).1.InoPaths = f.InoPaths
    ∧ (∀ j, j ≠ curPathStat.stat.Ino →
        (searchAndUpdate env opt f stats curPathStat inoHash).1.InoStatInfo.lookup j
          = f.InoStatInfo.lookup j)
    ∧ (∀ H x,
        x ∈ ((searchAndUpdate env opt f stats curPathStat inoHash).1.InoHashes.lookup H).getD ∅ →
        x ∈ (f.InoHashes.lookup H).getD ∅ ∨ x = curPathStat.stat.Ino) := by
  unfold searchAndUpdate
  dsimp only
  have hF : (if (useDigestFlag opt (f.InoHashes.getZ inoHash ∅).card) = true
        then digestEscalation env f
          { stats with numInoSeqSearches := stats.numInoSeqSearches + 1 } curPathStat
          (f.InoHashes.getZ inoHash ∅)
        else (finsetAsc (f.InoHashes.getZ inoHash ∅), f,
          { stats with numInoSeqSearches := stats.numInoSeqSearches + 1 })).2.1.InoHashes
          = f.InoHashes
      ∧ (if (useDigestFlag opt (f.InoHashes.getZ inoHash ∅).card) = true
        then digestEscalation env f
          { stats with numInoSeqSearches := stats.numInoSeqSearches + 1 } curPathStat
          (f.InoHashes.getZ inoHash ∅)
        else (finsetAsc (f.InoHashes.getZ inoHash ∅), f,
          { stats with numInoSeqSearches := stats.numInoSeqSearches + 1 })).2.1.InoStatInfo
          = f.InoStatInfo
      ∧ (if (useDigestFlag opt (f.InoHashes.getZ inoHash ∅).card) = true
        then digestEscalation env f
          { stats with numInoSeqSearches := stats.numInoSeqSearches + 1 } curPathStat
          (f.InoHashes.getZ inoHash ∅)
        else (finsetAsc (f.InoHashes.getZ inoHash ∅), f,
          { stats with numInoSeqSearches := stats.numInoSeqSearches + 1 })).2.1.InoPaths
          = f.InoPaths := by
    split
    · have hx := digestEscalation_effects env f
        { stats with numInoSeqSearches := stats.numInoSeqSearches + 1 } curPathStat
        (f.InoHashes.getZ inoHash ∅)
      exact ⟨hx.1, hx.2.1, hx.2.2.1⟩
    · exact ⟨rfl, rfl, rfl⟩
  split
  · rename_i f2 st2 heq
    have hx := searchLoop_index_of_eq heq
    refine ⟨hx.2.2.trans hF.2.2, fun j _ => by rw [hx.2.1, hF.2.1], fun H x hmem => ?_⟩
    rw [hx.1, hF.1] at hmem
    exact Or.inl hmem
  · rename_i f2 st2 heq
    have hx := searchLoop_index_of_eq heq
    dsimp only
    refine ⟨hx.2.2.trans hF.2.2, fun j hj => ?_, fun H x hmem => ?_⟩
    · rw [GoMap.lookup_insert_ne _ _ hj, hx.2.1, hF.2.1]
    · by_cases hH : H = inoHash
      · subst hH
        rw [GoMap.lookup_insert_self] at hmem
        simp only [Option.getD_some] at hmem
        rcases Finset.mem_insert.1 hmem with hmem | hmem
        · exact Or.inr hmem
        · unfold GoMap.getZ at hmem
          rw [hx.1, hF.1] at hmem
          exact Or.inl hmem
      · rw [GoMap.lookup_insert_ne _ _ hH, hx.1, hF.1] at hmem
        exact Or.inl hmem

theorem foundHashBranch_index_effects (env : Env) (opt : Options) (f : FSDev)
    (stats : LinkingStats) (curPathStat : PathStat) (inoHash : Hash) (hashedInos : InoSet) :
    (foundHashBranch env opt f stats curPathStat inoHash hashedInos).1.InoPaths = f.InoPaths
    ∧ (∀ j, j ≠ curPathStat.stat.Ino →
        (foundHashBranch env opt f stats curPathStat inoHash hashedInos).1.InoStatInfo.lookup j
          = f.InoStatInfo.lookup j)
    ∧ (∀ H x,
        x ∈ ((foundHashBranch env opt f stats curPathStat inoHash
            hashedInos).1.InoHashes.lookup H).getD ∅ →
        x ∈ (f.InoHashes.lookup H).getD ∅ ∨ x = curPathStat.stat.Ino) := by
  unfold foundHashBranch
  dsimp only
  split
  · exact ⟨rfl, fun _ _ => rfl, fun H x h => Or.inl h⟩
  · exact searchAndUpdate_index_effects env opt f _ curPathStat inoHash

theorem InoAppendPathname_lookup (f : FSDev) (ino : Ino) (p : Pathsplit) (j : Ino) :
    (InoAppendPathname f ino p).InoPaths.lookup j
      = if j = ino
        then some ((f.InoPaths.getZ ino (GoMap.empty [])).insert p.Filename
          ((f.InoPaths.getZ ino (GoMap.empty [])).getZ p.Filename [] ++ [p]))
        else f.InoPaths.lookup j := by
  unfold InoAppendPathname
  dsimp only
  rw [GoMap.lookup_insert]

theorem InoAppendPathname_other_fields (f : FSDev) (ino : Ino) (p : Pathsplit) :
    (InoAppendPathname f ino p).InoHashes = f.InoHashes
    ∧ (InoAppendPathname f ino p).InoStatInfo = f.InoStatInfo := ⟨rfl, rfl⟩

/-- C1 counterexample: ingest two distinct identical single-link files into
a fresh engine; the second is matched against the first and linked, so its
inode is recorded in the stat and path maps but in no bucket — the claimed
three-way equivalence fails. -/
theorem index_inv_c1_counterexample :
    ¬ ClaimedIndexInv
      (findIdenticalFiles
        ⟨fun _ => [1], fun _ _ => true, fun _ _ => false, fun _ _ => true⟩
        ⟨false, false, false, false, false, false, 1⟩
        (findIdenticalFiles
          ⟨fun _ => [1], fun _ _ => true, fun _ _ => false, fun _ _ => true⟩
          ⟨false, false, false, false, false, false, 1⟩
          (NewFSDev 1 100) NewLinkingStats ⟨"d", "a"⟩ ⟨10, 1, 100, 5, 1, 0, 0, 420⟩).1
        NewLinkingStats ⟨"d", "b"⟩ ⟨10, 2, 100, 5, 1, 0, 0, 420⟩).1 := by
  intro h
  obtain ⟨H, hH⟩ := (h 2).2.mp (by decide)
  obtain ⟨hkeys, hval⟩ := GoMap.mem_of_lookup_getD _ hH
  have hforall : ∀ H2 ∈ (findIdenticalFiles
        ⟨fun _ => [1], fun _ _ => true, fun _ _ => false, fun _ _ => true⟩
        ⟨false, false, false, false, false, false, 1⟩
        (findIdenticalFiles
          ⟨fun _ => [1], fun _ _ => true, fun _ _ => false, fun _ _ => true⟩
          ⟨false, false, false, false, false, false, 1⟩
          (NewFSDev 1 100) NewLinkingStats ⟨"d", "a"⟩ ⟨10, 1, 100, 5, 1, 0, 0, 420⟩).1
        NewLinkingStats ⟨"d", "b"⟩ ⟨10, 2, 100, 5, 1, 0, 0, 420⟩).1.InoHashes.keys,
      (2 : Ino) ∉ (findIdenticalFiles
        ⟨fun _ => [1], fun _ _ => true, fun _ _ => false, fun _ _ => true⟩
        ⟨false, false, false, false, false, false, 1⟩
        (findIdenticalFiles
          ⟨fun _ => [1], fun _ _ => true, fun _ _ => false, fun _ _ => true⟩
          ⟨false, false, false, false, false, false, 1⟩
          (NewFSDev 1 100) NewLinkingStats ⟨"d", "a"⟩ ⟨10, 1, 100, 5, 1, 0, 0, 420⟩).1
        NewLinkingStats ⟨"d", "b"⟩ ⟨10, 2, 100, 5, 1, 0, 0, 420⟩).1.InoHashes.val H2 := by
    decide
  exact hforall H hkeys hval

/-- C1 amended: the stat map and the path map always have the same domain,
and every bucket member has a recorded stat; this holds initially and is
preserved by every ingestion.  (The spec's stronger three-way equivalence
fails: an inode matched during the candidate search is linked without being
added to its bucket.) -/
theorem index_inv_c1_amended :
    (∀ dev maxNLinks, AmendedIndexInv (NewFSDev dev maxNLinks))
    ∧ (∀ env opt f stats curPath statInfo, AmendedIndexInv f →
        AmendedIndexInv (findIdenticalFiles env opt f stats curPath statInfo).1) := by
  constructor
  · intro dev maxNLinks ino
    refine ⟨by simp [NewFSDev], fun H hmem => ?_⟩
    simp [NewFSDev] at hmem
  · intro env opt f stats curPath statInfo h
    unfold findIdenticalFiles
    dsimp only
    intro j
    -- effects of the middle section, branch by bucket lookup
    have hr : ∀ (r : FSDev × LinkingStats),
        (r.1.InoPaths = f.InoPaths
          ∧ (∀ i, i ≠ statInfo.Ino → r.1.InoStatInfo.lookup i = f.InoStatInfo.lookup i)
          ∧ (∀ H x, x ∈ (r.1.InoHashes.lookup H).getD ∅ →
              x ∈ (f.InoHashes.lookup H).getD ∅ ∨ x = statInfo.Ino)) →
        (((InoAppendPathname
            { r.1 with InoStatInfo := r.1.InoStatInfo.insert statInfo.Ino statInfo }
            statInfo.Ino curPath).InoStatInfo.lookup j).isSome = true
          ↔ ((InoAppendPathname
            { r.1 with InoStatInfo := r.1.InoStatInfo.insert statInfo.Ino statInfo }
            statInfo.Ino curPath).InoPaths.lookup j).isSome = true)
        ∧ (∀ H, j ∈ ((InoAppendPathname
            { r.1 with InoStatInfo := r.1.InoStatInfo.insert statInfo.Ino statInfo }
            statInfo.Ino curPath).InoHashes.lookup H).getD ∅ →
            ((InoAppendPathname
              { r.1 with InoStatInfo := r.1.InoStatInfo.insert statInfo.Ino statInfo }
              statInfo.Ino curPath).InoStatInfo.lookup j).isSome = true) := by
      intro r ⟨hp, hs, hb⟩
      rw [InoAppendPathname_lookup]
      have hstat : (InoAppendPathname
          { r.1 with InoStatInfo := r.1.InoStatInfo.insert statInfo.Ino statInfo }
          statInfo.Ino curPath).InoStatInfo
          = r.1.InoStatInfo.insert statInfo.Ino statInfo := rfl
      have hhash : (InoAppendPathname
          { r.1 with InoStatInfo := r.1.InoStatInfo.insert statInfo.Ino statInfo }
          statInfo.Ino curPath).InoHashes = r.1.InoHashes := rfl
      rw [hstat, hhash]
      by_cases hj : j = statInfo.Ino
      · subst hj
        rw [GoMap.lookup_insert_self, if_pos rfl]
        exact ⟨by simp, fun H _ => by simp⟩
      · rw [GoMap.lookup_insert_ne _ _ hj, if_neg hj, hs j hj, hp]
        refine ⟨(h j).1, fun H hmem => ?_⟩
        rcases hb H j hmem with hmem2 | hmem2
        · exact (h j).2 H hmem2
        · exact absurd hmem2 hj
    split
    · exact hr _ ⟨rfl, fun i _ => rfl, fun H x hmem => by
        by_cases hH : H = InoHash statInfo opt
        · subst hH
          rw [GoMap.lookup_insert_self] at hmem
          simp only [Option.getD_some, Finset.mem_singleton] at hmem
          exact Or.inr hmem
        · rw [GoMap.lookup_insert_ne _ _ hH] at hmem
          exact Or.inl hmem⟩
    · exact hr _ (foundHashBranch_index_effects env opt f _ ⟨curPath, statInfo⟩
        (InoHash statInfo opt) _)

/-- Witness for the amended C1: the invariant holds after one ingestion
into a fresh engine. -/
theorem index_inv_c1_amended_witness :
    AmendedIndexInv (findIdenticalFiles
      ⟨fun _ => [1], fun _ _ => true, fun _ _ => false, fun _ _ => true⟩
      ⟨false, false, false, false, false, false, 1⟩
      (NewFSDev 1 100) NewLinkingStats ⟨"d", "a"⟩ ⟨10, 1, 100, 5, 1, 0, 0, 420⟩).1 :=
  index_inv_c1_amended.2 _ _ _ _ _ _ (index_inv_c1_amended.1 1 100)

/-! ### Claim C7: re-ingestion is idempotent on buckets and edges -/

theorem length_finsetAsc {α : Type} [LinearOrder α] (s : Finset α) :
    (finsetAsc s).length = s.card := by
  rcases s with ⟨val, nodup⟩
  induction val using Quot.inductionOn with
  | h l =>
    simp only [finsetAsc, Quot.liftOn, Finset.card_def]
    rw [List.length_insertionSort]
    rfl

theorem linkedInoSetLoop_result_subset :
    ∀ (fuel : Nat) (remaining : GoMap Ino InoSet) (pending : List Ino) (result : InoSet),
      result ⊆ linkedInoSetLoop fuel remaining pending result := by
  intro fuel
  induction fuel with
  | zero => intro remaining pending result; exact Finset.Subset.refl _
  | succ fuel ih =>
    intro remaining pending result
    cases pending with
    | nil => exact Finset.Subset.refl _
    | cons ino rest =>
      unfold linkedInoSetLoop
      dsimp only
      split
      · exact (Finset.subset_insert _ _).trans (ih _ _ _)
      · exact (Finset.subset_insert _ _).trans (ih _ _ _)

theorem linkedInoSetLoop_pending_mem :
    ∀ (fuel : Nat) (remaining : GoMap Ino InoSet) (pending : List Ino) (result : InoSet)
      (x : Ino), x ∈ pending →
      pending.length + remaining.keys.sum (fun k => 1 + (remaining.val k).card) ≤ fuel →
      x ∈ linkedInoSetLoop fuel remaining pending result := by
  intro fuel
  induction fuel with
  | zero =>
    intro remaining pending result x hx hle
    rcases pending with _ | ⟨a, rest⟩
    · simp at hx
    · simp at hle
  | succ fuel ih =>
    intro remaining pending result x hx hle
    rcases pending with _ | ⟨ino, rest⟩
    · simp at hx
    unfold linkedInoSetLoop
    dsimp only
    rcases hlk : remaining.lookup ino with _ | linked
    · rcases List.mem_cons.1 hx with hx | hx
      · subst hx
        exact linkedInoSetLoop_result_subset _ _ _ _ (Finset.mem_insert_self _ _)
      · refine ih remaining rest _ x hx ?_
        simp only [List.length_cons] at hle
        omega
    · rcases List.mem_cons.1 hx with hx | hx
      · subst hx
        exact linkedInoSetLoop_result_subset _ _ _ _ (Finset.mem_insert_self _ _)
      · have hkey : ino ∈ remaining.keys := by
          by_contra hk
          simp [GoMap.lookup, hk] at hlk
        have hval : remaining.val ino = linked := by
          simp only [GoMap.lookup, hkey, if_true] at hlk
          exact Option.some_injective _ hlk
        refine ih (remaining.erase ino) (finsetAsc linked ++ rest) _ x
          (List.mem_append.2 (Or.inr hx)) ?_
        have hsum : (remaining.keys.erase ino).sum (fun k => 1 + (remaining.val k).card)
            + (1 + (remaining.val ino).card)
            = remaining.keys.sum (fun k => 1 + (remaining.val k).card) :=
          Finset.sum_erase_add _ _ hkey
        simp only [List.length_append, List.length_cons, length_finsetAsc, GoMap.erase] at hle ⊢
        rw [hval] at hsum
        omega

theorem mem_linkedInoSet_self (g : FSDev) (ino : Ino) : ino ∈ linkedInoSet g ino := by
  unfold linkedInoSet
  split
  · exact Finset.mem_singleton_self _
  · exact linkedInoSetLoop_pending_mem _ _ _ _ ino (List.mem_singleton.2 rfl)
      (by unfold linkedFuel; simp; omega)

theorem mem_linkedInoSet_adjacent (g : FSDev) (ino c : Ino)
    (h : c ∈ (g.LinkedInos.lookup ino).getD ∅) : c ∈ linkedInoSet g ino := by
  unfold linkedInoSet
  rcases hlk : g.LinkedInos.lookup ino with _ | linked
  · rw [hlk] at h
    simp at h
  · rw [hlk] at h
    simp only [Option.getD_some] at h
    have hkey : ino ∈ g.LinkedInos.keys := by
      by_contra hk
      simp [GoMap.lookup, hk] at hlk
    have hval : g.LinkedInos.val ino = linked := by
      simp only [GoMap.lookup, hkey, if_true] at hlk
      exact Option.some_injective _ hlk
    unfold linkedFuel
    rw [linkedInoSetLoop]
    dsimp only
    rw [hlk]
    refine linkedInoSetLoop_pending_mem _ _ _ _ c
      (List.mem_append.2 (Or.inl ((mem_finsetAsc _ _).2 h))) ?_
    have hsum : (g.LinkedInos.keys.erase ino).sum (fun k => 1 + (g.LinkedInos.val k).card)
        + (1 + (g.LinkedInos.val ino).card)
        = g.LinkedInos.keys.sum (fun k => 1 + (g.LinkedInos.val k).card) :=
      Finset.sum_erase_add _ _ hkey
    simp only [List.length_append, List.length_nil, length_finsetAsc, GoMap.erase]
    rw [hval] at hsum
    omega

theorem linkedInoSet_congr (g1 g2 : FSDev) (ino : Ino)
    (h : g1.LinkedInos = g2.LinkedInos) : linkedInoSet g1 ino = linkedInoSet g2 ino := by
  unfold linkedInoSet
  rw [h]

theorem addLinkableInos_mem (g : FSDev) (a b : Ino) :
    a ∈ ((addLinkableInos g a b).LinkedInos.lookup b).getD ∅ := by
  unfold addLinkableInos
  dsimp only
  split
  · dsimp only
    split
    · simp
    · simp
  · dsimp only
    split
    · simp
    · simp

theorem searchLoop_true_edge (env : Env) (opt : Options) (ud : Bool) (cur : PathStat) :
    ∀ (seq : List Ino) (f0 : FSDev) (st0 : LinkingStats) (f2 : FSDev) (st2 : LinkingStats),
      searchLoop env opt ud cur seq f0 st0 = (true, f2, st2) →
      (∀ c ∈ seq, ∃ st, f0.InoStatInfo.lookup c = some st ∧ st.Ino = c) →
      ∃ c ∈ seq, c ∈ (f2.LinkedInos.lookup cur.stat.Ino).getD ∅ := by
  intro seq
  induction seq with
  | nil =>
    intro f0 st0 f2 st2 heq hseq
    unfold searchLoop at heq
    simp at heq
  | cons cand rest ih =>
    intro f0 st0 f2 st2 heq hseq
    unfold searchLoop at heq
    dsimp only at heq
    split at heq
    · rename_i fx stx hx
      cases heq
      obtain ⟨st, hlk, hino⟩ := hseq cand (List.mem_cons_self _ _)
      have hpc : (PathStatFromIno f0 cand).stat.Ino = cand := by
        unfold PathStatFromIno
        dsimp only
        unfold GoMap.getZ
        rw [hlk]
        simpa using hino
      refine ⟨cand, List.mem_cons_self _ _, ?_⟩
      rw [hpc]
      exact addLinkableInos_mem fx cand cur.stat.Ino
    · rename_i fx stx hx
      have heff := areFilesHardlinkable_effects env opt f0
        { st0 with numInoSeqIterations := st0.numInoSeqIterations + 1 }
        (PathStatFromIno f0 cand) cur ud
      rw [hx] at heff
      dsimp only at heff
      have hseq2 : ∀ c ∈ rest, ∃ st, fx.InoStatInfo.lookup c = some st ∧ st.Ino = c := by
        intro c hc
        rw [heff.2.1]
        exact hseq c (List.mem_cons_of_mem _ hc)
      obtain ⟨c, hc, hmem⟩ := ih fx stx f2 st2 heq hseq2
      exact ⟨c, List.mem_cons_of_mem _ hc, hmem⟩

theorem digestEscalation_seq_subset (env : Env) (f : FSDev) (stats : LinkingStats)
    (cur : PathStat) (cached : InoSet) :
    ∀ c ∈ (digestEscalation env f stats cur cached).1, c ∈ cached := by
  unfold digestEscalation
  split
  · intro c hc
    exact (mem_finsetAsc _ _).1 hc
  · rename_i d stats2 heq
    dsimp only
    intro c hc
    rcases List.mem_append.1 hc with hc | hc
    · rw [mem_finsetAsc] at hc
      unfold digestPartition at hc
      exact (Finset.mem_inter.1 hc).1
    · rw [mem_finsetAsc] at hc
      unfold digestPartition at hc
      exact (Finset.mem_sdiff.1 hc).1

theorem foundHashBranch_hit (env : Env) (opt : Options) (g : FSDev) (stats : LinkingStats)
    (cur : PathStat) (inoHash : Hash) (B : InoSet)
    (h : 0 < ((linkedInoSet g cur.stat.Ino) ∩ B).card) :
    (foundHashBranch env opt g stats cur inoHash B).1 = g := by
  unfold foundHashBranch
  dsimp only
  rw [if_pos h]

theorem GoMap.getZ_eq_of_lookup {κ β : Type} [DecidableEq κ] (m : GoMap κ β) (k : κ)
    (b z : β) (h : m.lookup k = some b) : m.getZ k z = b := by
  unfold GoMap.getZ
  rw [h]
  rfl

theorem escChoice_facts (env : Env) (f : FSDev) (stats : LinkingStats)
    (cur : PathStat) (cached : InoSet) (ud : Bool) :
    (if ud = true then digestEscalation env f stats cur cached
      else (finsetAsc cached, f, stats)).2.1.InoHashes = f.InoHashes
    ∧ (if ud = true then digestEscalation env f stats cur cached
      else (finsetAsc cached, f, stats)).2.1.InoStatInfo = f.InoStatInfo
    ∧ (∀ c ∈ (if ud = true then digestEscalation env f stats cur cached
      else (finsetAsc cached, f, stats)).1, c ∈ cached) := by
  split
  · have hx := digestEscalation_effects env f stats cur cached
    exact ⟨hx.1, hx.2.1, digestEscalation_seq_subset env f stats cur cached⟩
  · exact ⟨rfl, rfl, fun c hc => (mem_finsetAsc _ _).1 hc⟩

/-- After `searchAndUpdate` the bucket for the searched hash exists and
meets the linked-inode component of the current inode: either the search
succeeded and `addLinkableInos` recorded an edge to a bucket member, or it
failed and the current inode itself was added to the bucket. -/
theorem searchAndUpdate_anchor (env : Env) (opt : Options) (f : FSDev)
    (stats : LinkingStats) (cur : PathStat) (inoHash : Hash) (B0 : InoSet)
    (hB : f.InoHashes.lookup inoHash = some B0)
    (hW : ∀ c ∈ B0, ∃ st, f.InoStatInfo.lookup c = some st ∧ st.Ino = c) :
    ∃ B, (searchAndUpdate env opt f stats cur inoHash).1.InoHashes.lookup inoHash = some B
      ∧ 0 < ((linkedInoSet (searchAndUpdate env opt f stats cur inoHash).1
          cur.stat.Ino) ∩ B).card := by
  unfold searchAndUpdate
  dsimp only
  have hE := escChoice_facts env f
    { stats with numInoSeqSearches := stats.numInoSeqSearches + 1 } cur
    (f.InoHashes.getZ inoHash ∅) (useDigestFlag opt (f.InoHashes.getZ inoHash ∅).card)
  split
  · rename_i f2 st2 heq
    dsimp only
    have hidx := searchLoop_index_of_eq heq
    obtain ⟨c, hcseq, hedge⟩ := searchLoop_true_edge env opt _ cur _ _ _ f2 st2 heq
      (by
        intro c hc
        rw [hE.2.1]
        exact hW c (GoMap.getZ_eq_of_lookup f.InoHashes inoHash B0 ∅ hB ▸ hE.2.2 c hc))
    refine ⟨B0, ?_, ?_⟩
    · rw [hidx.1, hE.1]
      exact hB
    · refine Finset.card_pos.2 ⟨c, Finset.mem_inter.2
        ⟨mem_linkedInoSet_adjacent f2 cur.stat.Ino c hedge, ?_⟩⟩
      exact GoMap.getZ_eq_of_lookup f.InoHashes inoHash B0 ∅ hB ▸ hE.2.2 c hcseq
  · rename_i f2 st2 heq
    dsimp only
    refine ⟨Insert.insert cur.stat.Ino (f2.InoHashes.getZ inoHash ∅), ?_, ?_⟩
    · exact GoMap.lookup_insert_self _ _ _
    · exact Finset.card_pos.2 ⟨cur.stat.Ino, Finset.mem_inter.2
        ⟨mem_linkedInoSet_self _ _, Finset.mem_insert_self _ _⟩⟩

theorem anchor_wrap (g : FSDev) (X : GoMap Ino StatInfo) (p : Pathsplit) (i : Ino) (H0 : Hash)
    (h : ∃ B, g.InoHashes.lookup H0 = some B ∧ 0 < ((linkedInoSet g i) ∩ B).card) :
    ∃ B, (InoAppendPathname { g with InoStatInfo := X } i p).InoHashes.lookup H0 = some B
      ∧ 0 < ((linkedInoSet (InoAppendPathname { g with InoStatInfo := X } i p) i) ∩ B).card := by
  obtain ⟨B, h1, h2⟩ := h
  refine ⟨B, ?_, ?_⟩
  · rw [(InoAppendPathname_other_fields _ _ _).1]
    exact h1
  · rw [linkedInoSet_congr (InoAppendPathname { g with InoStatInfo := X } i p) g i rfl]
    exact h2

/-- After any ingestion, the ingested inode's component meets its metadata
bucket: the bucket for its hash exists and intersects `linkedInoSet` of the
inode.  Needs the pre-state to be index-consistent: every bucket member has
a stat recorded under its own inode number. -/
theorem findIdenticalFiles_anchor (env : Env) (opt : Options) (f : FSDev)
    (stats : LinkingStats) (curPath : Pathsplit) (statInfo : StatInfo)
    (hW : ∀ H i, i ∈ (f.InoHashes.lookup H).getD ∅ →
      ∃ st, f.InoStatInfo.lookup i = some st ∧ st.Ino = i) :
    ∃ B, (findIdenticalFiles env opt f stats curPath statInfo).1.InoHashes.lookup
        (InoHash statInfo opt) = some B
      ∧ 0 < ((linkedInoSet (findIdenticalFiles env opt f stats curPath statInfo).1
          statInfo.Ino) ∩ B).card := by
  unfold findIdenticalFiles
  dsimp only
  split
  · rename_i hnone
    refine anchor_wrap _ _ _ _ _ ⟨{statInfo.Ino}, ?_, ?_⟩
    · exact GoMap.lookup_insert_self _ _ _
    · exact Finset.card_pos.2 ⟨statInfo.Ino, Finset.mem_inter.2
        ⟨mem_linkedInoSet_self _ _, Finset.mem_singleton_self _⟩⟩
  · rename_i B0 hsome
    unfold foundHashBranch
    dsimp only
    split
    · rename_i hhit
      exact anchor_wrap _ _ _ _ _ ⟨B0, hsome, hhit⟩
    · rename_i hmiss
      refine anchor_wrap _ _ _ _ _ (searchAndUpdate_anchor env opt f _ _ _ B0 hsome ?_)
      intro c hc
      refine hW (InoHash statInfo opt) c ?_
      rw [hsome]
      simpa using hc

/-- C7: ingesting the same `(path, stat)` a second time leaves the bucket
map (`InoHashes`) and the linked-inode adjacency (`LinkedInos`) unchanged
and appends exactly one path entry for the inode: the second ingestion
finds the inode's own bucket and the bucket intersects the inode's linked
component, so the search-and-link phase is skipped.  The pre-state must be
index-consistent: every bucket member has a stat recorded under its own
inode number (true of every state reachable from `NewFSDev`). -/
theorem reingest_c7 (env env2 : Env) (opt : Options) (f : FSDev)
    (stats stats2 : LinkingStats) (curPath : Pathsplit) (statInfo : StatInfo)
    (hW : ∀ H i, i ∈ (f.InoHashes.lookup H).getD ∅ →
      ∃ st, f.InoStatInfo.lookup i = some st ∧ st.Ino = i) :
    (findIdenticalFiles env2 opt (findIdenticalFiles env opt f stats curPath statInfo).1
        stats2 curPath statInfo).1.InoHashes
      = (findIdenticalFiles env opt f stats curPath statInfo).1.InoHashes
    ∧ (findIdenticalFiles env2 opt (findIdenticalFiles env opt f stats curPath statInfo).1
        stats2 curPath statInfo).1.LinkedInos
      = (findIdenticalFiles env opt f stats curPath statInfo).1.LinkedInos
    ∧ (∀ j, j ≠ statInfo.Ino →
        (findIdenticalFiles env2 opt (findIdenticalFiles env opt f stats curPath statInfo).1
          stats2 curPath statInfo).1.InoPaths.lookup j
        = (findIdenticalFiles env opt f stats curPath statInfo).1.InoPaths.lookup j)
    ∧ (findIdenticalFiles env2 opt (findIdenticalFiles env opt f stats curPath statInfo).1
        stats2 curPath statInfo).1.InoPaths.lookup statInfo.Ino
      = some
        (((findIdenticalFiles env opt f stats curPath statInfo).1.InoPaths.getZ statInfo.Ino
            (GoMap.empty [])).insert curPath.Filename
          (((findIdenticalFiles env opt f stats curPath statInfo).1.InoPaths.getZ statInfo.Ino
              (GoMap.empty [])).getZ curPath.Filename [] ++ [curPath])) := by
  obtain ⟨B, hBlk, hpos⟩ := findIdenticalFiles_anchor env opt f stats curPath statInfo hW
  set s1 := (findIdenticalFiles env opt f stats curPath statInfo).1 with hs1
  have hstep : (findIdenticalFiles env2 opt s1 stats2 curPath statInfo).1
      = InoAppendPathname
          { s1 with InoStatInfo := s1.InoStatInfo.insert statInfo.Ino statInfo }
          statInfo.Ino curPath := by
    unfold findIdenticalFiles
    dsimp only
    rw [hBlk]
    dsimp only
    rw [foundHashBranch_hit env2 opt s1 _ ⟨curPath, statInfo⟩ (InoHash statInfo opt) B hpos]
  refine ⟨?_, ?_, ?_, ?_⟩
  · rw [hstep]
    rfl
  · rw [hstep]
    rfl
  · intro j hj
    rw [hstep, InoAppendPathname_lookup]
    rw [if_neg hj]
  · rw [hstep, InoAppendPathname_lookup]
    rw [if_pos rfl]

theorem reingest_c7_witness :
    (∀ H i, i ∈ ((NewFSDev 1 100).InoHashes.lookup H).getD ∅ →
      ∃ st, (NewFSDev 1 100).InoStatInfo.lookup i = some st ∧ st.Ino = i)
    ∧ ((findIdenticalFiles ⟨fun _ => [1], fun _ _ => true, fun _ _ => false, fun _ _ => true⟩
          ⟨false, false, false, false, false, false, 1⟩
          (findIdenticalFiles ⟨fun _ => [1], fun _ _ => true, fun _ _ => false, fun _ _ => true⟩
            ⟨false, false, false, false, false, false, 1⟩
            (NewFSDev 1 100) NewLinkingStats ⟨"d", "a"⟩ ⟨10, 1, 100, 5, 1, 0, 0, 420⟩).1
          NewLinkingStats ⟨"d", "a"⟩ ⟨10, 1, 100, 5, 1, 0, 0, 420⟩).1.InoHashes
        = (findIdenticalFiles ⟨fun _ => [1], fun _ _ => true, fun _ _ => false, fun _ _ => true⟩
            ⟨false, false, false, false, false, false, 1⟩
            (NewFSDev 1 100) NewLinkingStats ⟨"d", "a"⟩ ⟨10, 1, 100, 5, 1, 0, 0, 420⟩).1.InoHashes
      ∧ (findIdenticalFiles ⟨fun _ => [1], fun _ _ => true, fun _ _ => false, fun _ _ => true⟩
          ⟨false, false, false, false, false, false, 1⟩
          (findIdenticalFiles ⟨fun _ => [1], fun _ _ => true, fun _ _ => false, fun _ _ => true⟩
            ⟨false, false, false, false, false, false, 1⟩
            (NewFSDev 1 100) NewLinkingStats ⟨"d", "a"⟩ ⟨10, 1, 100, 5, 1, 0, 0, 420⟩).1
          NewLinkingStats ⟨"d", "a"⟩ ⟨10, 1, 100, 5, 1, 0, 0, 420⟩).1.LinkedInos
        = (findIdenticalFiles ⟨fun _ => [1], fun _ _ => true, fun _ _ => false, fun _ _ => true⟩
            ⟨false, false, false, false, false, false, 1⟩
            (NewFSDev 1 100) NewLinkingStats ⟨"d", "a"⟩ ⟨10, 1, 100, 5, 1, 0, 0, 420⟩).1.LinkedInos
      ∧ (∀ j, j ≠ (1 : Nat) →
          (findIdenticalFiles ⟨fun _ => [1], fun _ _ => true, fun _ _ => false, fun _ _ => true⟩
            ⟨false, false, false, false, false, false, 1⟩
            (findIdenticalFiles ⟨fun _ => [1], fun _ _ => true, fun _ _ => false, fun _ _ => true⟩
              ⟨false, false, false, false, false, false, 1⟩
              (NewFSDev 1 100) NewLinkingStats ⟨"d", "a"⟩ ⟨10, 1, 100, 5, 1, 0, 0, 420⟩).1
            NewLinkingStats ⟨"d", "a"⟩ ⟨10, 1, 100, 5, 1, 0, 0, 420⟩).1.InoPaths.lookup j
          = (findIdenticalFiles ⟨fun _ => [1], fun _ _ => true, fun _ _ => false, fun _ _ => true⟩
              ⟨false, false, false, false, false, false, 1⟩
              (NewFSDev 1 100) NewLinkingStats ⟨"d", "a"⟩
              ⟨10, 1, 100, 5, 1, 0, 0, 420⟩).1.InoPaths.lookup j)
      ∧ (findIdenticalFiles ⟨fun _ => [1], fun _ _ => true, fun _ _ => false, fun _ _ => true⟩
          ⟨false, false, false, false, false, false, 1⟩
          (findIdenticalFiles ⟨fun _ => [1], fun _ _ => true, fun _ _ => false, fun _ _ => true⟩
            ⟨false, false, false, false, false, false, 1⟩
            (NewFSDev 1 100) NewLinkingStats ⟨"d", "a"⟩ ⟨10, 1, 100, 5, 1, 0, 0, 420⟩).1
          NewLinkingStats ⟨"d", "a"⟩ ⟨10, 1, 100, 5, 1, 0, 0, 420⟩).1.InoPaths.lookup 1
        = some
          (((findIdenticalFiles ⟨fun _ => [1], fun _ _ => true, fun _ _ => false, fun _ _ => true⟩
              ⟨false, false, false, false, false, false, 1⟩
              (NewFSDev 1 100) NewLinkingStats ⟨"d", "a"⟩
              ⟨10, 1, 100, 5, 1, 0, 0, 420⟩).1.InoPaths.getZ 1
              (GoMap.empty [])).insert "a"
            (((findIdenticalFiles ⟨fun _ => [1], fun _ _ => true, fun _ _ => false,
                fun _ _ => true⟩
                ⟨false, false, false, false, false, false, 1⟩
                (NewFSDev 1 100) NewLinkingStats ⟨"d", "a"⟩
                ⟨10, 1, 100, 5, 1, 0, 0, 420⟩).1.InoPaths.getZ 1
                (GoMap.empty [])).getZ "a" [] ++ [⟨"d", "a"⟩]))) := by
  have hw : ∀ H i, i ∈ ((NewFSDev 1 100).InoHashes.lookup H).getD ∅ →
      ∃ st, (NewFSDev 1 100).InoStatInfo.lookup i = some st ∧ st.Ino = i := by
    intro H i hi
    simp [NewFSDev, GoMap.lookup, GoMap.empty] at hi
  exact ⟨hw, reingest_c7
    ⟨fun _ => [1], fun _ _ => true, fun _ _ => false, fun _ _ => true⟩
    ⟨fun _ => [1], fun _ _ => true, fun _ _ => false, fun _ _ => true⟩
    ⟨false, false, false, false, false, false, 1⟩
    (NewFSDev 1 100) NewLinkingStats NewLinkingStats ⟨"d", "a"⟩
    ⟨10, 1, 100, 5, 1, 0, 0, 420⟩ hw⟩

/-! ### Claim C5: the planner respects the nlink cap -/

theorem mem_of_mem_removeFirstPath (L : List Pathsplit) (p q : Pathsplit)
    (h : q ∈ removeFirstPath L p) : q ∈ L := by
  induction L with
  | nil => simp [removeFirstPath] at h
  | cons x xs ih =>
    unfold removeFirstPath at h
    by_cases hx : x = p
    · rw [if_pos hx] at h
      exact List.mem_cons_of_mem _ h
    · rw [if_neg hx] at h
      rcases List.mem_cons.1 h with h | h
      · exact h ▸ List.mem_cons_self _ _
      · exact List.mem_cons_of_mem _ (ih h)

theorem removeFirstPath_perm (L : List Pathsplit) (p : Pathsplit) (h : p ∈ L) :
    (removeFirstPath L p ++ [p]).Perm L := by
  induction L with
  | nil => simp at h
  | cons x xs ih =>
    unfold removeFirstPath
    by_cases hx : x = p
    · rw [if_pos hx, hx]
      exact List.perm_append_singleton p xs
    · rw [if_neg hx]
      have hp : p ∈ xs := by
        rcases List.mem_cons.1 h with h | h
        · exact absurd h.symm hx
        · exact h
      simpa using (ih hp).cons x

theorem coe_removeFirstPath (L : List Pathsplit) (p : Pathsplit) (h : p ∈ L) :
    (↑(removeFirstPath L p) : Multiset Pathsplit) + {p} = ↑L := by
  have hperm := Multiset.coe_eq_coe.2 (removeFirstPath_perm L p h)
  rw [← hperm]
  rfl

theorem coe_finsetAsc {α : Type} [LinearOrder α] (s : Finset α) :
    (↑(finsetAsc s) : Multiset α) = s.val := by
  rcases s with ⟨val, nodup⟩
  induction val using Quot.inductionOn with
  | h l =>
    simp only [finsetAsc, Quot.liftOn]
    exact Multiset.coe_eq_coe.2 (List.perm_insertionSort _ _)

theorem coe_foldr_append {κ : Type} (v : κ → List Pathsplit) (l : List κ) :
    (↑(l.foldr (fun k acc => v k ++ acc) []) : Multiset Pathsplit)
      = (l.map (fun k => (↑(v k) : Multiset Pathsplit))).sum := by
  induction l with
  | nil => rfl
  | cons x xs ih =>
    simp only [List.foldr_cons, List.map_cons, List.sum_cons]
    rw [← ih]
    rfl

theorem allInoPaths_multiset (g : FSDev) (i : Ino) :
    (↑(allInoPaths g i) : Multiset Pathsplit)
      = ∑ k ∈ (g.InoPaths.getZ i (GoMap.empty [])).keys,
          (↑((g.InoPaths.getZ i (GoMap.empty [])).val k) : Multiset Pathsplit) := by
  unfold allInoPaths
  rw [coe_foldr_append]
  rw [Finset.sum_eq_multiset_sum]
  rw [← coe_finsetAsc ((g.InoPaths.getZ i (GoMap.empty [])).keys)]
  rw [Multiset.map_coe, Multiset.sum_coe]

theorem sum_insert_filenamePaths (fp : FilenamePaths) (k0 : String) (L : List Pathsplit)
    (h : k0 ∈ fp.keys) :
    (∑ k ∈ (fp.insert k0 L).keys, (↑((fp.insert k0 L).val k) : Multiset Pathsplit))
      + ↑(fp.val k0)
    = (∑ k ∈ fp.keys, (↑(fp.val k) : Multiset Pathsplit)) + ↑L := by
  have hkeys : (fp.insert k0 L).keys = fp.keys := by
    show Insert.insert k0 fp.keys = fp.keys
    exact Finset.insert_eq_self.2 h
  rw [hkeys]
  have hupd : ∑ k ∈ fp.keys, (↑((fp.insert k0 L).val k) : Multiset Pathsplit)
      = ∑ k ∈ fp.keys.erase k0, (↑(fp.val k) : Multiset Pathsplit) + ↑L := by
    rw [← Finset.sum_erase_add fp.keys
      (fun k => (↑((fp.insert k0 L).val k) : Multiset Pathsplit)) h]
    congr 1
    · refine Finset.sum_congr rfl (fun x hx => ?_)
      show (↑(Function.update fp.val k0 L x) : Multiset Pathsplit) = _
      rw [Function.update_noteq (Finset.ne_of_mem_erase hx)]
    · show (↑(Function.update fp.val k0 L k0) : Multiset Pathsplit) = _
      rw [Function.update_same]
  rw [hupd, ← Finset.sum_erase_add fp.keys (fun k => (↑(fp.val k) : Multiset Pathsplit)) h]
  refine Multiset.ext.2 (fun a => ?_)
  simp only [Multiset.count_add]
  omega

theorem sum_insert_filenamePaths_new (fp : FilenamePaths) (k0 : String) (L : List Pathsplit)
    (h : k0 ∉ fp.keys) :
    ∑ k ∈ (fp.insert k0 L).keys, (↑((fp.insert k0 L).val k) : Multiset Pathsplit)
    = (∑ k ∈ fp.keys, (↑(fp.val k) : Multiset Pathsplit)) + ↑L := by
  show ∑ k ∈ Insert.insert k0 fp.keys, (↑(Function.update fp.val k0 L k) : Multiset Pathsplit) = _
  rw [Finset.sum_insert h, Function.update_same]
  have hupd : ∑ k ∈ fp.keys, (↑(Function.update fp.val k0 L k) : Multiset Pathsplit)
      = ∑ k ∈ fp.keys, (↑(fp.val k) : Multiset Pathsplit) :=
    Finset.sum_congr rfl (fun x hx => by
      rw [Function.update_noteq (ne_of_mem_of_not_mem hx h)])
  rw [hupd]
  exact add_comm _ _

theorem sum_erase_filenamePaths (fp : FilenamePaths) (k0 : String) (h : k0 ∈ fp.keys) :
    (∑ k ∈ (fp.erase k0).keys, (↑((fp.erase k0).val k) : Multiset Pathsplit))
      + ↑(fp.val k0)
    = ∑ k ∈ fp.keys, (↑(fp.val k) : Multiset Pathsplit) := by
  show (∑ k ∈ fp.keys.erase k0, (↑(fp.val k) : Multiset Pathsplit)) + ↑(fp.val k0) = _
  exact Finset.sum_erase_add fp.keys _ h

theorem getZ_mem_keys (fp : FilenamePaths) (k0 : String) (h : k0 ∈ fp.keys) :
    fp.getZ k0 [] = fp.val k0 := by
  unfold GoMap.getZ GoMap.lookup
  rw [if_pos h]
  rfl

theorem getZ_not_mem_keys (fp : FilenamePaths) (k0 : String) (h : k0 ∉ fp.keys) :
    fp.getZ k0 [] = [] := by
  unfold GoMap.getZ GoMap.lookup
  rw [if_neg h]
  rfl

theorem allInoPaths_statInfo (g : FSDev) (X : GoMap Ino StatInfo) (j : Ino) :
    allInoPaths { g with InoStatInfo := X } j = allInoPaths g j := rfl

theorem allInoPaths_insertPaths_ne (g : FSDev) (i : Ino) (fp : FilenamePaths) (j : Ino)
    (h : j ≠ i) :
    allInoPaths { g with InoPaths := g.InoPaths.insert i fp } j = allInoPaths g j := by
  unfold allInoPaths
  dsimp only
  unfold GoMap.getZ
  rw [GoMap.lookup_insert_ne _ _ h]

theorem allInoPaths_append_ne (g : FSDev) (i : Ino) (p : Pathsplit) (j : Ino) (h : j ≠ i) :
    allInoPaths (InoAppendPathname g i p) j = allInoPaths g j := by
  unfold InoAppendPathname
  dsimp only
  exact allInoPaths_insertPaths_ne g i _ j h

theorem getZ_insertPaths_self (g : FSDev) (i : Ino) (fp : FilenamePaths) :
    ({ g with InoPaths := g.InoPaths.insert i fp } : FSDev).InoPaths.getZ i (GoMap.empty [])
      = fp := by
  unfold GoMap.getZ
  show ((g.InoPaths.insert i fp).lookup i).getD _ = fp
  rw [GoMap.lookup_insert_self]
  rfl

theorem coe_allInoPaths_append_self (g : FSDev) (i : Ino) (p : Pathsplit) :
    (↑(allInoPaths (InoAppendPathname g i p) i) : Multiset Pathsplit)
      = ↑(allInoPaths g i) + {p} := by
  rw [allInoPaths_multiset, allInoPaths_multiset]
  have hgetZ : (InoAppendPathname g i p).InoPaths.getZ i (GoMap.empty [])
      = (g.InoPaths.getZ i (GoMap.empty [])).insert p.Filename
          ((g.InoPaths.getZ i (GoMap.empty [])).getZ p.Filename [] ++ [p]) :=
    getZ_insertPaths_self g i _
  rw [hgetZ]
  by_cases hk : p.Filename ∈ (g.InoPaths.getZ i (GoMap.empty [])).keys
  · rw [getZ_mem_keys _ _ hk]
    have hsum := sum_insert_filenamePaths (g.InoPaths.getZ i (GoMap.empty [])) p.Filename
      ((g.InoPaths.getZ i (GoMap.empty [])).val p.Filename ++ [p]) hk
    refine Multiset.ext.2 (fun a => ?_)
    have hc := congrArg (Multiset.count a) hsum
    have hsplit : (↑((g.InoPaths.getZ i (GoMap.empty [])).val p.Filename ++ [p])
        : Multiset Pathsplit)
        = ↑((g.InoPaths.getZ i (GoMap.empty [])).val p.Filename) + {p} := rfl
    rw [hsplit] at hc
    simp only [Multiset.count_add] at hc ⊢
    omega
  · rw [getZ_not_mem_keys _ _ hk]
    have hsum := sum_insert_filenamePaths_new (g.InoPaths.getZ i (GoMap.empty []))
      p.Filename ([] ++ [p]) hk
    rw [hsum]
    rfl

theorem coe_allInoPaths_move_dst (f : FSDev) (dstPath : Pathsplit) (srcIno dstIno : Ino)
    (hsd : srcIno ≠ dstIno)
    (hk : dstPath.Filename ∈ (f.InoPaths.getZ dstIno (GoMap.empty [])).keys)
    (hmem : dstPath ∈ (f.InoPaths.getZ dstIno (GoMap.empty [])).val dstPath.Filename) :
    (↑(allInoPaths (moveLinkedPath f dstPath srcIno dstIno) dstIno) : Multiset Pathsplit)
        + {dstPath}
      = ↑(allInoPaths f dstIno) := by
  unfold moveLinkedPath
  dsimp only
  rw [allInoPaths_append_ne _ _ _ _ (Ne.symm hsd)]
  rw [allInoPaths_multiset, allInoPaths_multiset, getZ_insertPaths_self]
  rw [getZ_mem_keys _ _ hk]
  have hrm := coe_removeFirstPath ((f.InoPaths.getZ dstIno (GoMap.empty [])).val
    dstPath.Filename) dstPath hmem
  split
  · rename_i hemp
    have hnil : removeFirstPath ((f.InoPaths.getZ dstIno (GoMap.empty [])).val
        dstPath.Filename) dstPath = [] := List.isEmpty_iff.1 hemp
    rw [hnil] at hrm
    rw [show (↑([] : List Pathsplit) : Multiset Pathsplit) = 0 from rfl, zero_add] at hrm
    have hsum := sum_erase_filenamePaths (f.InoPaths.getZ dstIno (GoMap.empty []))
      dstPath.Filename hk
    refine Multiset.ext.2 (fun a => ?_)
    have hc1 := congrArg (Multiset.count a) hrm
    have hc2 := congrArg (Multiset.count a) hsum
    simp only [Multiset.count_add] at hc1 hc2 ⊢
    omega
  · rename_i hemp
    have hsum := sum_insert_filenamePaths (f.InoPaths.getZ dstIno (GoMap.empty []))
      dstPath.Filename (removeFirstPath ((f.InoPaths.getZ dstIno
        (GoMap.empty [])).val dstPath.Filename) dstPath) hk
    refine Multiset.ext.2 (fun a => ?_)
    have hc1 := congrArg (Multiset.count a) hrm
    have hc2 := congrArg (Multiset.count a) hsum
    simp only [Multiset.count_add] at hc1 hc2 ⊢
    omega

theorem coe_allInoPaths_move_src (f : FSDev) (dstPath : Pathsplit) (srcIno dstIno : Ino)
    (hsd : srcIno ≠ dstIno) :
    (↑(allInoPaths (moveLinkedPath f dstPath srcIno dstIno) srcIno) : Multiset Pathsplit)
      = ↑(allInoPaths f srcIno) + {dstPath} := by
  unfold moveLinkedPath
  dsimp only
  rw [coe_allInoPaths_append_self]
  rw [allInoPaths_insertPaths_ne f dstIno _ srcIno hsd]

theorem allInoPaths_move_other (f : FSDev) (dstPath : Pathsplit) (srcIno dstIno : Ino)
    (j : Ino) (hj1 : j ≠ srcIno) (hj2 : j ≠ dstIno) :
    allInoPaths (moveLinkedPath f dstPath srcIno dstIno) j = allInoPaths f j := by
  unfold moveLinkedPath
  dsimp only
  rw [allInoPaths_append_ne _ _ _ _ hj1, allInoPaths_insertPaths_ne _ _ _ _ hj2]

theorem getZ_InoAppendPathname_self (g : FSDev) (i : Ino) (p : Pathsplit) :
    (InoAppendPathname g i p).InoPaths.getZ i (GoMap.empty [])
      = (g.InoPaths.getZ i (GoMap.empty [])).insert p.Filename
          ((g.InoPaths.getZ i (GoMap.empty [])).getZ p.Filename [] ++ [p]) :=
  getZ_insertPaths_self g i _

theorem wf_InoAppendPathname (g : FSDev) (i : Ino) (p : Pathsplit)
    (h : PathsWF g) : PathsWF (InoAppendPathname g i p) := by
  intro i' k hkmem q hq
  by_cases hi : i' = i
  · subst hi
    rw [getZ_InoAppendPathname_self] at hkmem hq
    by_cases hkf : k = p.Filename
    · subst hkf
      have hval : ((g.InoPaths.getZ i' (GoMap.empty [])).insert p.Filename
            ((g.InoPaths.getZ i' (GoMap.empty [])).getZ p.Filename [] ++ [p])).val p.Filename
          = (g.InoPaths.getZ i' (GoMap.empty [])).getZ p.Filename [] ++ [p] :=
        Function.update_same _ _ _
      rw [hval] at hq
      rcases List.mem_append.1 hq with hq | hq
      · by_cases hk2 : p.Filename ∈ (g.InoPaths.getZ i' (GoMap.empty [])).keys
        · rw [getZ_mem_keys _ _ hk2] at hq
          exact h i' p.Filename hk2 q hq
        · rw [getZ_not_mem_keys _ _ hk2] at hq
          simp at hq
      · rw [List.mem_singleton.1 hq]
    · rcases Finset.mem_insert.1 (show k ∈ Insert.insert p.Filename
          (g.InoPaths.getZ i' (GoMap.empty [])).keys from hkmem) with h' | h'
      · exact absurd h' hkf
      · have hval : ((g.InoPaths.getZ i' (GoMap.empty [])).insert p.Filename
              ((g.InoPaths.getZ i' (GoMap.empty [])).getZ p.Filename [] ++ [p])).val k
            = (g.InoPaths.getZ i' (GoMap.empty [])).val k :=
          Function.update_noteq hkf _ _
        rw [hval] at hq
        exact h i' k h' q hq
  · have hgz : (InoAppendPathname g i p).InoPaths.getZ i' (GoMap.empty [])
        = g.InoPaths.getZ i' (GoMap.empty []) := by
      unfold InoAppendPathname
      dsimp only
      unfold GoMap.getZ
      show ((g.InoPaths.insert i _).lookup i').getD _ = _
      rw [GoMap.lookup_insert_ne _ _ hi]
    rw [hgz] at hkmem hq
    exact h i' k hkmem q hq

theorem wf_insertPaths (g : FSDev) (i : Ino) (fp' : FilenamePaths)
    (h : PathsWF g)
    (hfp' : ∀ k ∈ fp'.keys, ∀ q ∈ fp'.val k, q.Filename = k) :
    PathsWF { g with InoPaths := g.InoPaths.insert i fp' } := by
  intro i' k hk q hq
  by_cases hi : i' = i
  · subst hi
    rw [getZ_insertPaths_self] at hk hq
    exact hfp' k hk q hq
  · have hgz : ({ g with InoPaths := g.InoPaths.insert i fp' } : FSDev).InoPaths.getZ i'
        (GoMap.empty []) = g.InoPaths.getZ i' (GoMap.empty []) := by
      unfold GoMap.getZ
      show ((g.InoPaths.insert i fp').lookup i').getD _ = _
      rw [GoMap.lookup_insert_ne _ _ hi]
    rw [hgz] at hk hq
    exact h i' k hk q hq

theorem wf_moveLinkedPath (f : FSDev) (dstPath : Pathsplit) (srcIno dstIno : Ino)
    (h : PathsWF f) : PathsWF (moveLinkedPath f dstPath srcIno dstIno) := by
  unfold moveLinkedPath
  dsimp only
  refine wf_InoAppendPathname _ srcIno dstPath (wf_insertPaths f dstIno _ h ?_)
  split
  · intro k hk q hq
    exact h dstIno k (Finset.mem_of_mem_erase hk) q hq
  · intro k hk q hq
    by_cases hkf : k = dstPath.Filename
    · subst hkf
      have hval : ((f.InoPaths.getZ dstIno (GoMap.empty [])).insert dstPath.Filename
            (removeFirstPath ((f.InoPaths.getZ dstIno
              (GoMap.empty [])).getZ dstPath.Filename []) dstPath)).val dstPath.Filename
          = removeFirstPath ((f.InoPaths.getZ dstIno
              (GoMap.empty [])).getZ dstPath.Filename []) dstPath :=
        Function.update_same _ _ _
      rw [hval] at hq
      have hqL := mem_of_mem_removeFirstPath _ _ _ hq
      by_cases hk2 : dstPath.Filename ∈ (f.InoPaths.getZ dstIno (GoMap.empty [])).keys
      · rw [getZ_mem_keys _ _ hk2] at hqL
        exact h dstIno dstPath.Filename hk2 q hqL
      · rw [getZ_not_mem_keys _ _ hk2] at hqL
        simp at hqL
    · rcases Finset.mem_insert.1 (show k ∈ Insert.insert dstPath.Filename
          (f.InoPaths.getZ dstIno (GoMap.empty [])).keys from hk) with h' | h'
      · exact absurd h' hkf
      · have hval : ((f.InoPaths.getZ dstIno (GoMap.empty [])).insert dstPath.Filename
              (removeFirstPath ((f.InoPaths.getZ dstIno
                (GoMap.empty [])).getZ dstPath.Filename []) dstPath)).val k
            = (f.InoPaths.getZ dstIno (GoMap.empty [])).val k :=
          Function.update_noteq hkf _ _
        rw [hval] at hq
        exact h dstIno k h' q hq

theorem GoMap.getZ_insert_self {κ β : Type} [DecidableEq κ] (m : GoMap κ β) (k : κ)
    (b z : β) : (m.insert k b).getZ k z = b := by
  unfold GoMap.getZ
  rw [GoMap.lookup_insert_self]
  rfl

theorem GoMap.getZ_insert_ne {κ β : Type} [DecidableEq κ] (m : GoMap κ β) {k j : κ}
    (b z : β) (h : j ≠ k) : (m.insert k b).getZ j z = m.getZ j z := by
  unfold GoMap.getZ
  rw [GoMap.lookup_insert_ne _ _ h]

theorem GoMap.getZ_erase_self {κ β : Type} [DecidableEq κ] (m : GoMap κ β) (k : κ)
    (z : β) : (m.erase k).getZ k z = z := by
  unfold GoMap.getZ
  rw [GoMap.lookup_erase, if_pos rfl]
  rfl

theorem GoMap.getZ_erase_ne {κ β : Type} [DecidableEq κ] (m : GoMap κ β) {k j : κ}
    (z : β) (h : j ≠ k) : (m.erase k).getZ j z = m.getZ j z := by
  unfold GoMap.getZ
  rw [GoMap.lookup_erase, if_neg h]

/-- Combined effect of one planner emission on the engine state: the stat
map is replaced wholesale (`X`), the destination loses the moved path, the
source gains it, every other inode is untouched, and the path maps stay
well-formed. -/
theorem moveLinked_state_facts (f : FSDev) (X : GoMap Ino StatInfo) (dstPath : Pathsplit)
    (srcIno dstIno : Ino) (hsd : srcIno ≠ dstIno)
    (hk : dstPath.Filename ∈ (f.InoPaths.getZ dstIno (GoMap.empty [])).keys)
    (hmem : dstPath ∈ (f.InoPaths.getZ dstIno (GoMap.empty [])).val dstPath.Filename)
    (hwf : PathsWF f) :
    (moveLinkedPath { f with InoStatInfo := X } dstPath srcIno dstIno).InoStatInfo = X
    ∧ (↑(allInoPaths (moveLinkedPath { f with InoStatInfo := X } dstPath srcIno dstIno)
          dstIno) : Multiset Pathsplit) + {dstPath}
        = ↑(allInoPaths f dstIno)
    ∧ (↑(allInoPaths (moveLinkedPath { f with InoStatInfo := X } dstPath srcIno dstIno)
          srcIno) : Multiset Pathsplit)
        = ↑(allInoPaths f srcIno) + {dstPath}
    ∧ (∀ j, j ≠ srcIno → j ≠ dstIno →
        allInoPaths (moveLinkedPath { f with InoStatInfo := X } dstPath srcIno dstIno) j
          = allInoPaths f j)
    ∧ PathsWF (moveLinkedPath { f with InoStatInfo := X } dstPath srcIno dstIno) := by
  refine ⟨rfl, ?_, ?_, ?_, ?_⟩
  · have h1 := coe_allInoPaths_move_dst { f with InoStatInfo := X } dstPath srcIno dstIno
      hsd hk hmem
    rw [allInoPaths_statInfo] at h1
    exact h1
  · have h1 := coe_allInoPaths_move_src { f with InoStatInfo := X } dstPath srcIno dstIno hsd
    rw [allInoPaths_statInfo] at h1
    exact h1
  · intro j hj1 hj2
    have h1 := allInoPaths_move_other { f with InoStatInfo := X } dstPath srcIno dstIno
      j hj1 hj2
    rw [allInoPaths_statInfo] at h1
    exact h1
  · exact wf_moveLinkedPath _ dstPath srcIno dstIno hwf

set_option maxRecDepth 20000 in
/-- Master induction over the planner's inner path loop: each processed
path either skips or emits once; emissions raise the source nlink by one,
lower the destination nlink by one, move exactly one path, never touch
other inodes, and each emitted pair satisfies the cap at emission time. -/
theorem emitPaths_master (sameName : Bool) (maxNLinks : Nat) (srcIno dstIno : Ino)
    (hsd : srcIno ≠ dstIno) (hmax : maxNLinks < 2 ^ 32) :
    ∀ (ps : List Pathsplit) (f : FSDev) (srcSI dstSI : StatInfo) (res : PlanResults)
      (acc : List PathStatPair) (f' : FSDev) (srcSI' dstSI' : StatInfo)
      (res' : PlanResults) (acc' : List PathStatPair),
      emitPaths sameName srcIno dstIno ps f srcSI dstSI res acc
        = (f', srcSI', dstSI', res', acc') →
      (↑ps : Multiset Pathsplit) ≤ ↑(allInoPaths f dstIno) →
      ps.length ≤ dstSI.Nlink →
      srcSI.Nlink + dstSI.Nlink ≤ maxNLinks →
      (f.InoStatInfo.getZ srcIno default).Nlink = srcSI.Nlink →
      (f.InoStatInfo.getZ dstIno default).Nlink = dstSI.Nlink →
      PathsWF f →
      (∀ e ∈ acc, e.Src.stat.Nlink + 1 ≤ maxNLinks) →
      ∃ E : Nat,
        ((f'.InoStatInfo.getZ srcIno default).Nlink = srcSI.Nlink + E
          ∧ (f'.InoStatInfo.getZ dstIno default).Nlink = dstSI.Nlink - E
          ∧ (allInoPaths f' srcIno).length = (allInoPaths f srcIno).length + E
          ∧ (allInoPaths f' dstIno).length + E = (allInoPaths f dstIno).length)
        ∧ (∀ j, j ≠ srcIno → j ≠ dstIno →
            allInoPaths f' j = allInoPaths f j
            ∧ f'.InoStatInfo.getZ j default = f.InoStatInfo.getZ j default)
        ∧ PathsWF f'
        ∧ (∀ e ∈ acc', e.Src.stat.Nlink + 1 ≤ maxNLinks) := by
  intro ps
  induction ps with
  | nil =>
    intro f srcSI dstSI res acc f' srcSI' dstSI' res' acc' heq hsub hlen hsum hns hnd hwf hacc
    unfold emitPaths at heq
    cases heq
    exact ⟨0, ⟨by omega, by omega, by omega, by omega⟩,
      fun j hj1 hj2 => ⟨rfl, rfl⟩, hwf, hacc⟩
  | cons p rest ih =>
    intro f srcSI dstSI res acc f' srcSI' dstSI' res' acc' heq hsub hlen hsum hns hnd hwf hacc
    unfold emitPaths at heq
    by_cases hskip : (sameName
        && !((f.InoPaths.getZ srcIno (GoMap.empty [])).lookup p.Filename).isSome) = true
    · rw [if_pos hskip] at heq
      refine ih f srcSI dstSI res acc f' srcSI' dstSI' res' acc' heq ?_ ?_ hsum hns hnd hwf hacc
      · have hc : (↑(p :: rest) : Multiset Pathsplit) = {p} + ↑rest := rfl
        rw [hc] at hsub
        exact le_trans le_add_self hsub
      · simp only [List.length_cons] at hlen
        omega
    · rw [if_neg hskip] at heq
      dsimp only at heq
      have hp32 : (2 : Nat) ^ 32 = 4294967296 := by norm_num
      have hcons : (↑(p :: rest) : Multiset Pathsplit) = {p} + ↑rest := rfl
      rw [hcons] at hsub
      have hpmem : p ∈ (↑(allInoPaths f dstIno) : Multiset Pathsplit) :=
        Multiset.mem_of_le hsub (by simp)
      rw [allInoPaths_multiset] at hpmem
      obtain ⟨k, hkmem, hpval⟩ := (Finset.mem_sum _ _).1 hpmem
      have hkf := hwf dstIno k hkmem p (Multiset.mem_coe.1 hpval)
      have hkmem2 : p.Filename ∈ (f.InoPaths.getZ dstIno (GoMap.empty [])).keys := by
        rw [hkf]; exact hkmem
      have hpval2 : p ∈ (f.InoPaths.getZ dstIno (GoMap.empty [])).val p.Filename := by
        rw [hkf]; exact Multiset.mem_coe.1 hpval
      have hlen1 : 1 ≤ dstSI.Nlink := by
        simp only [List.length_cons] at hlen
        omega
      have hsafe : srcSI.Nlink + 1 ≤ maxNLinks := by omega
      have hsrcn : (srcSI.Nlink + 1) % 2 ^ 32 = srcSI.Nlink + 1 :=
        Nat.mod_eq_of_lt (lt_of_le_of_lt hsafe hmax)
      have hdstlt : dstSI.Nlink < 2 ^ 32 := lt_of_le_of_lt (by omega) hmax
      have hdstn : (dstSI.Nlink + (2 ^ 32 - 1)) % 2 ^ 32 = dstSI.Nlink - 1 := by
        have h1 : dstSI.Nlink + (2 ^ 32 - 1) = (dstSI.Nlink - 1) + 2 ^ 32 := by omega
        rw [h1, Nat.add_mod_right]
        exact Nat.mod_eq_of_lt (by omega)
      have hMS := moveLinked_state_facts f
        ((f.InoStatInfo.insert srcIno
            { srcSI with Nlink := (srcSI.Nlink + 1) % 2 ^ 32 }).erase dstIno)
        p srcIno dstIno hsd hkmem2 hpval2 hwf
      have hMS2 := moveLinked_state_facts f
        ((f.InoStatInfo.insert srcIno
            { srcSI with Nlink := (srcSI.Nlink + 1) % 2 ^ 32 }).insert dstIno
          { dstSI with Nlink := (dstSI.Nlink + (2 ^ 32 - 1)) % 2 ^ 32 })
        p srcIno dstIno hsd hkmem2 hpval2 hwf
      by_cases hz : (dstSI.Nlink + (2 ^ 32 - 1)) % 2 ^ 32 = 0
      · rw [if_pos hz] at heq
        dsimp only at heq
        rw [hdstn] at hz
        obtain ⟨E, ⟨hE1, hE2, hE3, hE4⟩, hEo, hEwf, hEacc⟩ :=
          ih _ _ _ _ _ f' srcSI' dstSI' res' acc' heq
            (by
              rw [Multiset.le_iff_count]
              intro a
              have h1 := Multiset.le_iff_count.1 hsub a
              have h2 := congrArg (Multiset.count a) hMS.2.1
              simp only [Multiset.count_add] at h1 h2
              omega)
            (by
              dsimp only
              rw [hdstn]
              simp only [List.length_cons] at hlen
              omega)
            (by
              dsimp only
              rw [hsrcn, hdstn]
              omega)
            (by
              rw [hMS.1]
              rw [GoMap.getZ_erase_ne _ _ hsd, GoMap.getZ_insert_self])
            (by
              rw [hMS.1]
              rw [GoMap.getZ_erase_self]
              rw [show (default : StatInfo).Nlink = 0 from rfl]
              dsimp only
              rw [hdstn]
              omega)
            hMS.2.2.2.2
            (by
              intro e he
              rcases List.mem_append.1 he with he | he
              · exact hacc e he
              · rw [List.mem_singleton.1 he]
                exact hsafe)
        refine ⟨E + 1, ⟨?_, ?_, ?_, ?_⟩, ?_, hEwf, hEacc⟩
        · rw [hE1]
          dsimp only
          rw [hsrcn]
          omega
        · rw [hE2]
          dsimp only
          rw [hdstn]
          omega
        · rw [hE3]
          have hcS := congrArg Multiset.card hMS.2.2.1
          simp only [Multiset.card_add, Multiset.coe_card, Multiset.card_singleton] at hcS
          omega
        · have hcD := congrArg Multiset.card hMS.2.1
          simp only [Multiset.card_add, Multiset.coe_card, Multiset.card_singleton] at hcD
          omega
        · intro j hj1 hj2
          obtain ⟨ho1, ho2⟩ := hEo j hj1 hj2
          refine ⟨ho1.trans (hMS.2.2.2.1 j hj1 hj2), ho2.trans ?_⟩
          rw [hMS.1]
          rw [GoMap.getZ_erase_ne _ _ hj2, GoMap.getZ_insert_ne _ _ _ hj1]
      · rw [if_neg hz] at heq
        dsimp only at heq
        obtain ⟨E, ⟨hE1, hE2, hE3, hE4⟩, hEo, hEwf, hEacc⟩ :=
          ih _ _ _ _ _ f' srcSI' dstSI' res' acc' heq
            (by
              rw [Multiset.le_iff_count]
              intro a
              have h1 := Multiset.le_iff_count.1 hsub a
              have h2 := congrArg (Multiset.count a) hMS2.2.1
              simp only [Multiset.count_add] at h1 h2
              omega)
            (by
              dsimp only
              rw [hdstn]
              simp only [List.length_cons] at hlen
              omega)
            (by
              dsimp only
              rw [hsrcn, hdstn]
              omega)
            (by
              rw [hMS2.1]
              rw [GoMap.getZ_insert_ne _ _ _ hsd, GoMap.getZ_insert_self])
            (by
              rw [hMS2.1]
              rw [GoMap.getZ_insert_self])
            hMS2.2.2.2.2
            (by
              intro e he
              rcases List.mem_append.1 he with he | he
              · exact hacc e he
              · rw [List.mem_singleton.1 he]
                exact hsafe)
        refine ⟨E + 1, ⟨?_, ?_, ?_, ?_⟩, ?_, hEwf, hEacc⟩
        · rw [hE1]
          dsimp only
          rw [hsrcn]
          omega
        · rw [hE2]
          dsimp only
          rw [hdstn]
          omega
        · rw [hE3]
          have hcS := congrArg Multiset.card hMS2.2.2.1
          simp only [Multiset.card_add, Multiset.coe_card, Multiset.card_singleton] at hcS
          omega
        · have hcD := congrArg Multiset.card hMS2.2.1
          simp only [Multiset.card_add, Multiset.coe_card, Multiset.card_singleton] at hcD
          omega
        · intro j hj1 hj2
          obtain ⟨ho1, ho2⟩ := hEo j hj1 hj2
          refine ⟨ho1.trans (hMS2.2.2.2.1 j hj1 hj2), ho2.trans ?_⟩
          rw [hMS2.1]
          rw [GoMap.getZ_insert_ne _ _ _ hj2, GoMap.getZ_insert_ne _ _ _ hj1]

/-- Master induction over the planner's destination loop: the cap guard
(`sum > maxNLinks` skips) together with `emitPaths_master` preserves the
path-count invariant and well-formedness, keeps the leftover pool free of
the source and duplicate-free, and every emitted pair satisfies the cap. -/
theorem sendLoop_master (sameName : Bool) (maxNLinks : Nat) (srcIno : Ino)
    (hmax : maxNLinks < 2 ^ 32) :
    ∀ (revRest : List Ino) (f : FSDev) (remaining : List Ino) (res : PlanResults)
      (acc : List PathStatPair) (f' : FSDev) (remaining' : List Ino)
      (res' : PlanResults) (acc' : List PathStatPair),
      sendLoop sameName maxNLinks srcIno revRest f remaining res acc
        = (f', remaining', res', acc') →
      (srcIno :: (revRest ++ remaining)).Nodup →
      NlinkInv f →
      PathsWF f →
      (∀ e ∈ acc, e.Src.stat.Nlink + 1 ≤ maxNLinks) →
      NlinkInv f' ∧ PathsWF f'
      ∧ (∀ e ∈ acc', e.Src.stat.Nlink + 1 ≤ maxNLinks)
      ∧ (srcIno :: remaining').Nodup
      ∧ (∀ x ∈ remaining', x ∈ revRest ∨ x ∈ remaining) := by
  intro revRest
  induction revRest with
  | nil =>
    intro f remaining res acc f' remaining' res' acc' heq hnodup hinv hwf hacc
    unfold sendLoop at heq
    cases heq
    refine ⟨hinv, hwf, hacc, ?_, fun x hx => Or.inr hx⟩
    simpa using hnodup
  | cons dstIno revRest ih =>
    intro f remaining res acc f' remaining' res' acc' heq hnodup hinv hwf hacc
    unfold sendLoop at heq
    dsimp only at heq
    have hsrcnot : srcIno ∉ (dstIno :: revRest) ++ remaining := (List.nodup_cons.1 hnodup).1
    have hsd : srcIno ≠ dstIno := by
      intro hEq
      exact hsrcnot (List.mem_append.2 (Or.inl (hEq ▸ List.mem_cons_self _ _)))
    by_cases hcap : maxNLinks < (f.InoStatInfo.getZ srcIno default).Nlink
        + (f.InoStatInfo.getZ dstIno default).Nlink
    · rw [if_pos hcap] at heq
      cases heq
      refine ⟨hinv, hwf, hacc, ?_, ?_⟩
      · have hpm : ((dstIno :: revRest) ++ remaining).Perm
            (remaining ++ [dstIno] ++ revRest) := by
          refine (List.perm_append_comm).trans ?_
          rw [List.append_assoc]
          refine List.Perm.append_left remaining ?_
          exact List.Perm.refl _
        exact (hpm.cons srcIno).nodup hnodup
      · intro x hx
        simp only [List.mem_append, List.mem_cons, List.mem_singleton,
          List.not_mem_nil, or_false] at hx ⊢
        rcases hx with (hx | hx) | hx
        · exact Or.inr hx
        · exact Or.inl (Or.inl hx)
        · exact Or.inl (Or.inr hx)
    · rw [if_neg hcap] at heq
      rcases hr : emitPaths sameName srcIno dstIno (allInoPaths f dstIno) f
          (f.InoStatInfo.getZ srcIno default) (f.InoStatInfo.getZ dstIno default) res acc
        with ⟨F2, S2, D2, RES2, ACC2⟩
      rw [hr] at heq
      dsimp only at heq
      obtain ⟨E, ⟨hg1, hg2, hg3, hg4⟩, hgo, hgwf, hgacc⟩ :=
        emitPaths_master sameName maxNLinks srcIno dstIno hsd hmax
          (allInoPaths f dstIno) f _ _ res acc F2 S2 D2 RES2 ACC2 hr
          (le_refl _) (hinv dstIno) (le_of_not_lt hcap) rfl rfl hwf hacc
      have hinv2 : NlinkInv F2 := by
        intro i
        by_cases hi1 : i = srcIno
        · rw [hi1, hg3, hg1]
          have := hinv srcIno
          omega
        by_cases hi2 : i = dstIno
        · rw [hi2, hg2]
          have := hinv dstIno
          omega
        · obtain ⟨ho1, ho2⟩ := hgo i hi1 hi2
          rw [ho1, ho2]
          exact hinv i
      have hnodup1 : (srcIno :: (revRest ++ remaining)).Nodup := by
        refine List.nodup_cons.2 ⟨?_, ?_⟩
        · intro hx
          exact hsrcnot (List.mem_cons_of_mem _ hx)
        · exact ((List.nodup_cons.1 hnodup).2).of_cons
      have hnodup2 : (srcIno :: (revRest ++ (remaining ++ [dstIno]))).Nodup := by
        have hpm : ((dstIno :: revRest) ++ remaining).Perm
            (revRest ++ (remaining ++ [dstIno])) := by
          show (dstIno :: (revRest ++ remaining)).Perm _
          refine ((List.perm_append_singleton dstIno (revRest ++ remaining)).symm).trans ?_
          rw [List.append_assoc]
        exact (hpm.cons srcIno).nodup hnodup
      rcases hlk : F2.InoPaths.lookup dstIno with _ | fp
      · rw [hlk] at heq
        dsimp only at heq
        obtain ⟨hc1, hc2, hc3, hc4, hc5⟩ := ih F2 remaining RES2 ACC2 f' remaining' res' acc'
          heq hnodup1 hinv2 hgwf hgacc
        exact ⟨hc1, hc2, hc3, hc4, fun x hx => (hc5 x hx).imp
          (fun h => List.mem_cons_of_mem _ h) id⟩
      · rw [hlk] at heq
        dsimp only at heq
        by_cases hke : fp.keys = ∅
        · rw [if_pos hke] at heq
          obtain ⟨hc1, hc2, hc3, hc4, hc5⟩ := ih F2 remaining RES2 ACC2 f' remaining' res' acc'
            heq hnodup1 hinv2 hgwf hgacc
          exact ⟨hc1, hc2, hc3, hc4, fun x hx => (hc5 x hx).imp
            (fun h => List.mem_cons_of_mem _ h) id⟩
        · rw [if_neg hke] at heq
          obtain ⟨hc1, hc2, hc3, hc4, hc5⟩ := ih F2 (remaining ++ [dstIno]) RES2 ACC2
            f' remaining' res' acc' heq hnodup2 hinv2 hgwf hgacc
          refine ⟨hc1, hc2, hc3, hc4, fun x hx => ?_⟩
          rcases hc5 x hx with h | h
          · exact Or.inl (List.mem_cons_of_mem _ h)
          · rcases List.mem_append.1 h with h | h
            · exact Or.inr h
            · exact Or.inl (List.mem_singleton.1 h ▸ List.mem_cons_self _ _)

theorem sendLinkedPairs_master (sameName : Bool) (maxNLinks : Nat)
    (hmax : maxNLinks < 2 ^ 32) :
    ∀ (fuel : Nat) (sortedInos remainingInos : List Ino) (f : FSDev)
      (res : PlanResults) (acc : List PathStatPair),
      (sortedInos ++ remainingInos).Nodup →
      NlinkInv f →
      PathsWF f →
      (∀ e ∈ acc, e.Src.stat.Nlink + 1 ≤ maxNLinks) →
      ∀ e ∈ (sendLinkedPairs sameName maxNLinks fuel sortedInos remainingInos
          f res acc).2.2,
        e.Src.stat.Nlink + 1 ≤ maxNLinks := by
  intro fuel
  induction fuel with
  | zero =>
    intro sortedInos remainingInos f res acc hnodup hinv hwf hacc
    exact hacc
  | succ fuel ih =>
    intro sortedInos remainingInos f res acc hnodup hinv hwf hacc
    unfold sendLinkedPairs
    dsimp only
    by_cases hempty : (sortedInos.isEmpty && remainingInos.isEmpty) = true
    · rw [if_pos hempty]
      exact hacc
    · rw [if_neg hempty]
      have hpool : (if remainingInos.isEmpty = true then sortedInos
          else sortedInos ++ remainingInos.reverse).Nodup := by
        split
        · exact (List.nodup_append.1 hnodup).1
        · exact (List.Perm.append_left sortedInos (List.reverse_perm
            remainingInos).symm).nodup hnodup
      rcases hm : (if remainingInos.isEmpty = true then sortedInos
          else sortedInos ++ remainingInos.reverse) with _ | ⟨srcIno, rest⟩
      · dsimp only
        exact hacc
      · rw [hm] at hpool
        dsimp only
        rcases hr : sendLoop sameName maxNLinks srcIno rest.reverse f [] res acc
          with ⟨F2, REM2, RES2, ACC2⟩
        dsimp only
        obtain ⟨hc1, hc2, hc3, hc4, hc5⟩ := sendLoop_master sameName maxNLinks srcIno hmax
          rest.reverse f [] res acc F2 REM2 RES2 ACC2 hr
          (by
            refine List.nodup_cons.2 ⟨?_, ?_⟩
            · intro hx
              rw [List.append_nil] at hx
              exact (List.nodup_cons.1 hpool).1 ((List.reverse_perm rest).subset hx)
            · rw [List.append_nil]
              exact (List.reverse_perm rest).symm.nodup (List.nodup_cons.1 hpool).2)
          hinv hwf hacc
        refine ih [] REM2 F2 RES2 ACC2 ?_ hc1 hc2 hc3
        show ([] ++ REM2).Nodup
        rw [List.nil_append]
        exact hc4.of_cons

theorem wf_singleFP (x d : String) :
    ∀ k ∈ ((GoMap.empty []).insert x [(⟨d, x⟩ : Pathsplit)] : FilenamePaths).keys,
      ∀ q ∈ ((GoMap.empty []).insert x [(⟨d, x⟩ : Pathsplit)] : FilenamePaths).val k,
        q.Filename = k := by
  intro k hk q hq
  rcases Finset.mem_insert.1 (show k ∈ Insert.insert x (∅ : Finset String) from hk)
    with hka | hka
  · rw [hka] at hq ⊢
    rw [show ((GoMap.empty []).insert x [(⟨d, x⟩ : Pathsplit)] : FilenamePaths).val x
        = [⟨d, x⟩] from Function.update_same _ _ _] at hq
    rw [List.mem_singleton.1 hq]
  · exact absurd hka (Finset.not_mem_empty k)

/-- C5: every link pair the planner emits satisfies the nlink cap at the
moment of emission — the pair carries the source stat as it was right then,
and its nlink plus one never exceeds `maxNLinks`.  Assumes the planner's
inputs are consistent: the component's inodes are distinct, no inode has
more recorded paths than links, paths are filed under their own filenames,
and the cap fits in a `uint32`.  The second conjunct is the claim's
concrete case: `max_nlink = 2` on three single-link inodes emits exactly
one pair. -/
theorem planner_nlink_cap_c5 (sameName : Bool) (maxNLinks : Nat) (sortedInos : List Ino)
    (f : FSDev) (hmax : maxNLinks < 2 ^ 32) (hnd : sortedInos.Nodup)
    (hinv : NlinkInv f) (hwf : PathsWF f) :
    (∀ e ∈ (sendLinkedPairsRun sameName maxNLinks sortedInos f).2.2,
        e.Src.stat.Nlink + 1 ≤ maxNLinks)
    ∧ (sendLinkedPairsRun false 2 [1, 2, 3]
        ⟨1, 2, GoMap.empty ∅,
         (((GoMap.empty default).insert 1 ⟨10, 1, 0, 0, 1, 0, 0, 420⟩).insert 2
           ⟨10, 2, 0, 0, 1, 0, 0, 420⟩).insert 3 ⟨10, 3, 0, 0, 1, 0, 0, 420⟩,
         (((GoMap.empty (GoMap.empty [])).insert 1
             ((GoMap.empty []).insert "a" [⟨"d", "a"⟩])).insert 2
           ((GoMap.empty []).insert "b" [⟨"d", "b"⟩])).insert 3
           ((GoMap.empty []).insert "c" [⟨"d", "c"⟩]),
         GoMap.empty ∅, GoMap.empty ∅, ∅⟩).2.2.length = 1 := by
  constructor
  · intro e he
    exact sendLinkedPairs_master sameName maxNLinks hmax sortedInos.length sortedInos []
      f ⟨0, 0, 0⟩ [] (by rw [List.append_nil]; exact hnd) hinv hwf
      (fun e he => absurd he (List.not_mem_nil e)) e he
  · decide

set_option maxHeartbeats 1000000 in
theorem planner_nlink_cap_c5_witness :
    NlinkInv ⟨1, 2, GoMap.empty ∅,
      (((GoMap.empty default).insert 1 ⟨10, 1, 0, 0, 1, 0, 0, 420⟩).insert 2
        ⟨10, 2, 0, 0, 1, 0, 0, 420⟩).insert 3 ⟨10, 3, 0, 0, 1, 0, 0, 420⟩,
      (((GoMap.empty (GoMap.empty [])).insert 1
          ((GoMap.empty []).insert "a" [⟨"d", "a"⟩])).insert 2
        ((GoMap.empty []).insert "b" [⟨"d", "b"⟩])).insert 3
        ((GoMap.empty []).insert "c" [⟨"d", "c"⟩]),
      GoMap.empty ∅, GoMap.empty ∅, ∅⟩
    ∧ PathsWF ⟨1, 2, GoMap.empty ∅,
      (((GoMap.empty default).insert 1 ⟨10, 1, 0, 0, 1, 0, 0, 420⟩).insert 2
        ⟨10, 2, 0, 0, 1, 0, 0, 420⟩).insert 3 ⟨10, 3, 0, 0, 1, 0, 0, 420⟩,
      (((GoMap.empty (GoMap.empty [])).insert 1
          ((GoMap.empty []).insert "a" [⟨"d", "a"⟩])).insert 2
        ((GoMap.empty []).insert "b" [⟨"d", "b"⟩])).insert 3
        ((GoMap.empty []).insert "c" [⟨"d", "c"⟩]),
      GoMap.empty ∅, GoMap.empty ∅, ∅⟩
    ∧ (∀ e ∈ (sendLinkedPairsRun false 2 [1, 2, 3]
        ⟨1, 2, GoMap.empty ∅,
         (((GoMap.empty default).insert 1 ⟨10, 1, 0, 0, 1, 0, 0, 420⟩).insert 2
           ⟨10, 2, 0, 0, 1, 0, 0, 420⟩).insert 3 ⟨10, 3, 0, 0, 1, 0, 0, 420⟩,
         (((GoMap.empty (GoMap.empty [])).insert 1
             ((GoMap.empty []).insert "a" [⟨"d", "a"⟩])).insert 2
           ((GoMap.empty []).insert "b" [⟨"d", "b"⟩])).insert 3
           ((GoMap.empty []).insert "c" [⟨"d", "c"⟩]),
         GoMap.empty ∅, GoMap.empty ∅, ∅⟩).2.2,
        e.Src.stat.Nlink + 1 ≤ 2)
    ∧ (sendLinkedPairsRun false 2 [1, 2, 3]
        ⟨1, 2, GoMap.empty ∅,
         (((GoMap.empty default).insert 1 ⟨10, 1, 0, 0, 1, 0, 0, 420⟩).insert 2
           ⟨10, 2, 0, 0, 1, 0, 0, 420⟩).insert 3 ⟨10, 3, 0, 0, 1, 0, 0, 420⟩,
         (((GoMap.empty (GoMap.empty [])).insert 1
             ((GoMap.empty []).insert "a" [⟨"d", "a"⟩])).insert 2
           ((GoMap.empty []).insert "b" [⟨"d", "b"⟩])).insert 3
           ((GoMap.empty []).insert "c" [⟨"d", "c"⟩]),
         GoMap.empty ∅, GoMap.empty ∅, ∅⟩).2.2.length = 1 := by
  have hinv : NlinkInv ⟨1, 2, GoMap.empty ∅,
      (((GoMap.empty default).insert 1 ⟨10, 1, 0, 0, 1, 0, 0, 420⟩).insert 2
        ⟨10, 2, 0, 0, 1, 0, 0, 420⟩).insert 3 ⟨10, 3, 0, 0, 1, 0, 0, 420⟩,
      (((GoMap.empty (GoMap.empty [])).insert 1
          ((GoMap.empty []).insert "a" [⟨"d", "a"⟩])).insert 2
        ((GoMap.empty []).insert "b" [⟨"d", "b"⟩])).insert 3
        ((GoMap.empty []).insert "c" [⟨"d", "c"⟩]),
      GoMap.empty ∅, GoMap.empty ∅, ∅⟩ := by
    intro i
    by_cases h1 : i = 1
    · rw [h1]
      decide
    by_cases h2 : i = 2
    · rw [h2]
      decide
    by_cases h3 : i = 3
    · rw [h3]
      decide
    · have hlk : ((((GoMap.empty (GoMap.empty [])).insert 1
          ((GoMap.empty []).insert "a" [(⟨"d", "a"⟩ : Pathsplit)])).insert 2
          ((GoMap.empty []).insert "b" [⟨"d", "b"⟩])).insert 3
          ((GoMap.empty []).insert "c" [⟨"d", "c"⟩])).lookup i = none := by
        simp [GoMap.lookup, GoMap.empty, h1, h2, h3]
      have hap : allInoPaths ⟨1, 2, GoMap.empty ∅,
          (((GoMap.empty default).insert 1 ⟨10, 1, 0, 0, 1, 0, 0, 420⟩).insert 2
            ⟨10, 2, 0, 0, 1, 0, 0, 420⟩).insert 3 ⟨10, 3, 0, 0, 1, 0, 0, 420⟩,
          (((GoMap.empty (GoMap.empty [])).insert 1
              ((GoMap.empty []).insert "a" [⟨"d", "a"⟩])).insert 2
            ((GoMap.empty []).insert "b" [⟨"d", "b"⟩])).insert 3
            ((GoMap.empty []).insert "c" [⟨"d", "c"⟩]),
          GoMap.empty ∅, GoMap.empty ∅, ∅⟩ i = [] := by
        unfold allInoPaths
        rw [show (⟨1, 2, GoMap.empty ∅,
            (((GoMap.empty default).insert 1 ⟨10, 1, 0, 0, 1, 0, 0, 420⟩).insert 2
              ⟨10, 2, 0, 0, 1, 0, 0, 420⟩).insert 3 ⟨10, 3, 0, 0, 1, 0, 0, 420⟩,
            (((GoMap.empty (GoMap.empty [])).insert 1
                ((GoMap.empty []).insert "a" [⟨"d", "a"⟩])).insert 2
              ((GoMap.empty []).insert "b" [⟨"d", "b"⟩])).insert 3
              ((GoMap.empty []).insert "c" [⟨"d", "c"⟩]),
            GoMap.empty ∅, GoMap.empty ∅, ∅⟩ : FSDev).InoPaths.getZ i (GoMap.empty [])
            = GoMap.empty [] from by
          unfold GoMap.getZ
          rw [hlk]
          rfl]
        rfl
      rw [hap]
      exact Nat.zero_le _
  have hwf : PathsWF ⟨1, 2, GoMap.empty ∅,
      (((GoMap.empty default).insert 1 ⟨10, 1, 0, 0, 1, 0, 0, 420⟩).insert 2
        ⟨10, 2, 0, 0, 1, 0, 0, 420⟩).insert 3 ⟨10, 3, 0, 0, 1, 0, 0, 420⟩,
      (((GoMap.empty (GoMap.empty [])).insert 1
          ((GoMap.empty []).insert "a" [⟨"d", "a"⟩])).insert 2
        ((GoMap.empty []).insert "b" [⟨"d", "b"⟩])).insert 3
        ((GoMap.empty []).insert "c" [⟨"d", "c"⟩]),
      GoMap.empty ∅, GoMap.empty ∅, ∅⟩ := by
    intro i
    by_cases h1 : i = 1
    · rw [h1]
      rw [show (⟨1, 2, GoMap.empty ∅,
          (((GoMap.empty default).insert 1 ⟨10, 1, 0, 0, 1, 0, 0, 420⟩).insert 2
            ⟨10, 2, 0, 0, 1, 0, 0, 420⟩).insert 3 ⟨10, 3, 0, 0, 1, 0, 0, 420⟩,
          (((GoMap.empty (GoMap.empty [])).insert 1
              ((GoMap.empty []).insert "a" [⟨"d", "a"⟩])).insert 2
            ((GoMap.empty []).insert "b" [⟨"d", "b"⟩])).insert 3
            ((GoMap.empty []).insert "c" [⟨"d", "c"⟩]),
          GoMap.empty ∅, GoMap.empty ∅, ∅⟩ : FSDev).InoPaths.getZ 1 (GoMap.empty [])
          = (GoMap.empty []).insert "a" [(⟨"d", "a"⟩ : Pathsplit)] from rfl]
      exact wf_singleFP "a" "d"
    by_cases h2 : i = 2
    · rw [h2]
      rw [show (⟨1, 2, GoMap.empty ∅,
          (((GoMap.empty default).insert 1 ⟨10, 1, 0, 0, 1, 0, 0, 420⟩).insert 2
            ⟨10, 2, 0, 0, 1, 0, 0, 420⟩).insert 3 ⟨10, 3, 0, 0, 1, 0, 0, 420⟩,
          (((GoMap.empty (GoMap.empty [])).insert 1
              ((GoMap.empty []).insert "a" [⟨"d", "a"⟩])).insert 2
            ((GoMap.empty []).insert "b" [⟨"d", "b"⟩])).insert 3
            ((GoMap.empty []).insert "c" [⟨"d", "c"⟩]),
          GoMap.empty ∅, GoMap.empty ∅, ∅⟩ : FSDev).InoPaths.getZ 2 (GoMap.empty [])
          = (GoMap.empty []).insert "b" [(⟨"d", "b"⟩ : Pathsplit)] from rfl]
      exact wf_singleFP "b" "d"
    by_cases h3 : i = 3
    · rw [h3]
      rw [show (⟨1, 2, GoMap.empty ∅,
          (((GoMap.empty default).insert 1 ⟨10, 1, 0, 0, 1, 0, 0, 420⟩).insert 2
            ⟨10, 2, 0, 0, 1, 0, 0, 420⟩).insert 3 ⟨10, 3, 0, 0, 1, 0, 0, 420⟩,
          (((GoMap.empty (GoMap.empty [])).insert 1
              ((GoMap.empty []).insert "a" [⟨"d", "a"⟩])).insert 2
            ((GoMap.empty []).insert "b" [⟨"d", "b"⟩])).insert 3
            ((GoMap.empty []).insert "c" [⟨"d", "c"⟩]),
          GoMap.empty ∅, GoMap.empty ∅, ∅⟩ : FSDev).InoPaths.getZ 3 (GoMap.empty [])
          = (GoMap.empty []).insert "c" [(⟨"d", "c"⟩ : Pathsplit)] from rfl]
      exact wf_singleFP "c" "d"
    · intro k hk q hq
      have hlk : ((((GoMap.empty (GoMap.empty [])).insert 1
          ((GoMap.empty []).insert "a" [(⟨"d", "a"⟩ : Pathsplit)])).insert 2
          ((GoMap.empty []).insert "b" [⟨"d", "b"⟩])).insert 3
          ((GoMap.empty []).insert "c" [⟨"d", "c"⟩])).lookup i = none := by
        simp [GoMap.lookup, GoMap.empty, h1, h2, h3]
      rw [show (⟨1, 2, GoMap.empty ∅,
          (((GoMap.empty default).insert 1 ⟨10, 1, 0, 0, 1, 0, 0, 420⟩).insert 2
            ⟨10, 2, 0, 0, 1, 0, 0, 420⟩).insert 3 ⟨10, 3, 0, 0, 1, 0, 0, 420⟩,
          (((GoMap.empty (GoMap.empty [])).insert 1
              ((GoMap.empty []).insert "a" [⟨"d", "a"⟩])).insert 2
            ((GoMap.empty []).insert "b" [⟨"d", "b"⟩])).insert 3
            ((GoMap.empty []).insert "c" [⟨"d", "c"⟩]),
          GoMap.empty ∅, GoMap.empty ∅, ∅⟩ : FSDev).InoPaths.getZ i (GoMap.empty [])
          = GoMap.empty [] from by
        unfold GoMap.getZ
        rw [hlk]
        rfl] at hk
      exact absurd hk (Finset.not_mem_empty k)
  have hmax : (2 : Nat) < 2 ^ 32 := by norm_num
  have hnd : ([1, 2, 3] : List Ino).Nodup := by decide
  have hcc := planner_nlink_cap_c5 false 2 [1, 2, 3] _ hmax hnd hinv hwf
  exact ⟨hinv, hwf, hcc.1, hcc.2⟩

end Hardlinkable
